import Mathlib

/-!
Verification of the blocks-world search core of the MondeDeBlocs repository.

The embedding follows the Python sources:
  - namespace `MB`  : the forward-search module (arbre.py and arbre_graph_json.py,
    whose domain predicates, action generator and transition function are
    character-identical between the two files);
  - namespace `Inv` : the reverse-search module arbre_graph_json_inverse.py;
  - namespace `AP`  : the all-paths modules exhaustive_all_paths.py and
    find_all_winning_paths.py (identical domain code in the two files).

States are lists of object records.  Python dict records become a structure with
the fields the search core reads (ID, NOM, FORME, SUR_ID, COUCHE); MATERIAU_ID
is loaded from the CSV but never read by any search function, so it is omitted.
In-place mutation of the first record found by `next(...)` is modelled by
`updateFirst`.  Functions whose Python body can raise StopIteration (the
`next(o for o in ...)` lookups used to build descriptions) return `Option`,
with `none` modelling the exception.  The canonical state key, rendered in
Python as the string "id:sur:couche|..." over objects sorted by ID, is modelled
as the sorted list of (id, sur, couche) triples; the string rendering is
injective on such triple lists, so nothing is lost.
-/

/-- Whitespace test used by the embedded strip; covers the ASCII whitespace of
Python str.strip that can occur in the CSV shape fields. -/
def isSpaceChar (c : Char) : Bool := c.toNat == 32 || (9 ≤ c.toNat && c.toNat ≤ 13)

/-- ASCII uppercase of one character, as Python str.upper acts on shape names. -/
def upChar (c : Char) : Char :=
  if 97 ≤ c.toNat && c.toNat ≤ 122 then Char.ofNat (c.toNat - 32) else c

/-- Embedding of the idiom `forme.strip().upper()` used throughout the modules. -/
def stripUpper (s : String) : String :=
  let cs := s.data.dropWhile isSpaceChar
  ⟨((cs.reverse.dropWhile isSpaceChar).reverse).map upChar⟩

/-- One object record, with the fields of a CSV row read by the search core. -/
structure Obj where
  id : Int
  nom : String
  forme : String
  sur : Int
  couche : Bool
deriving Repr, DecidableEq

/-- The normalised shape of an object: `obj['FORME'].strip().upper()`. -/
def formeOf (o : Obj) : String := stripUpper o.forme

/-- Embedding of `next((o for o in objects_data if o['ID'] == obj_id), None)`. -/
def findObj (objects_data : List Obj) (obj_id : Int) : Option Obj :=
  objects_data.find? (fun o => o.id == obj_id)

/-- Replace the first element satisfying `p` by its image under `f`; models the
in-place mutation of the record returned by `next(...)`. -/
def updateFirst (p : α → Bool) (f : α → α) : List α → List α
  | [] => []
  | a :: l => if p a then f a :: l else a :: updateFirst p f l

/-- `get_objects_on_top` (identical in all modules): the objects whose SUR_ID
equals the given id. -/
def get_objects_on_top (obj_id : Int) (objects_data : List Obj) : List Obj :=
  objects_data.filter (fun o => o.sur == obj_id)

/-- Concatenation of the lists produced for each element, in order; models the
accumulating `actions.append` loops of the generators. -/
def concatMap (f : α → List β) : List α → List β
  | [] => []
  | a :: l => f a ++ concatMap f l

/-- The action tuples of the Python code: ('move', o, t), ('lay_down', o),
('move_to', o, t), ('stand_up', o). -/
inductive Act where
  | move (obj_id target_id : Int)
  | lay_down (obj_id : Int)
  | move_to (obj_id target_id : Int)
  | stand_up (obj_id : Int)
deriving Repr, DecidableEq

/-- Canonical state key: (id, sur, couche) triples sorted by id.  The Python
code renders this list as a string with ":" and "|" separators. -/
abbrev Key := List (Int × Int × Bool)

/-- Ordered insertion by the first component, matching the stable sort
`sorted(objects_data, key=lambda x: x['ID'])`. -/
def insertSorted (a : Int × Int × Bool) : Key → Key
  | [] => [a]
  | b :: l => if a.1 ≤ b.1 then a :: b :: l else b :: insertSorted a l

/-- Stable insertion sort by the first component. -/
def sortById : Key → Key
  | [] => []
  | a :: l => insertSorted a (sortById l)

namespace MB

/-- `peut_etre_deplace`: movable iff present, not the table, nothing on top. -/
def peut_etre_deplace (obj_id : Int) (objects_data : List Obj) : Bool :=
  match findObj objects_data obj_id with
  | none => false
  | some obj =>
    if formeOf obj == "TABLE" then false
    else (get_objects_on_top obj_id objects_data).length == 0

/-- `peut_etre_couche`: can lie down iff present, not table, not cube, nothing on top. -/
def peut_etre_couche (obj_id : Int) (objects_data : List Obj) : Bool :=
  match findObj objects_data obj_id with
  | none => false
  | some obj =>
    if formeOf obj == "TABLE" then false
    else if formeOf obj == "CUBE" then false
    else (get_objects_on_top obj_id objects_data).length == 0

/-- `peut_recevoir_deplacement`: the per-shape receive rule. -/
def peut_recevoir_deplacement (obj_id : Int) (objects_data : List Obj) : Bool :=
  match findObj objects_data obj_id with
  | none => false
  | some obj =>
    let forme := formeOf obj
    if forme == "TABLE" then true
    else if forme == "CYLINDRE" && !obj.couche then true
    else if forme == "DONUT_SAUCISSE" && obj.couche then true
    else if forme == "CUBE" then (get_objects_on_top obj_id objects_data).length == 0
    else false

/-- `get_all_possible_actions`: for each movable object, a move to every other
receivable target, then its lay-down action when possible. -/
def get_all_possible_actions (objects_data : List Obj) : List Act :=
  concatMap (fun obj =>
    (if peut_etre_deplace obj.id objects_data then
      objects_data.filterMap (fun target =>
        if target.id != obj.id && peut_recevoir_deplacement target.id objects_data then
          some (Act.move obj.id target.id)
        else none)
    else []) ++
    (if peut_etre_couche obj.id objects_data then [Act.lay_down obj.id] else []))
    objects_data

/-- The state-and-success part of the move arm of `apply_action`: re-validate
both preconditions, then set SUR_ID of the first matching record. -/
def move_update (objects_data : List Obj) (obj_id target_id : Int) : List Obj × Bool :=
  if !(peut_etre_deplace obj_id objects_data) ||
     !(peut_recevoir_deplacement target_id objects_data) then (objects_data, false)
  else
    match findObj objects_data obj_id with
    | some _ =>
      (updateFirst (fun o => o.id == obj_id) (fun o => { o with sur := target_id })
        objects_data, true)
    | none => (objects_data, false)

/-- The state-and-success part of the lay_down arm of `apply_action`; an object
that is already lying is reported as success with the state unchanged. -/
def lay_update (objects_data : List Obj) (obj_id : Int) : List Obj × Bool :=
  if !(peut_etre_couche obj_id objects_data) then (objects_data, false)
  else
    match findObj objects_data obj_id with
    | some o =>
      if !o.couche then
        (updateFirst (fun x => x.id == obj_id) (fun x => { x with couche := true })
          objects_data, true)
      else (objects_data, true)
    | none => (objects_data, true)

/-- `apply_action` (the silent branch used by the searches): re-validate, apply
on a copy, then build the description; the final name lookups can raise
StopIteration in Python, modelled by `none`. -/
def apply_action (objects_data : List Obj) (action : Act) :
    Option (List Obj × Bool × String) :=
  match action with
  | .move obj_id target_id =>
    match move_update objects_data obj_id target_id with
    | (new_state, success) =>
      match findObj new_state obj_id, findObj new_state target_id with
      | some o, some t => some (new_state, success, "Déplacer " ++ o.nom ++ " sur " ++ t.nom)
      | _, _ => none
  | .lay_down obj_id =>
    match lay_update objects_data obj_id with
    | (new_state, success) =>
      match findObj new_state obj_id with
      | some o => some (new_state, success, "Coucher " ++ o.nom)
      | none => none
  | _ => some (objects_data, false, "Action inconnue")

/-- `states_equal`: same length and, for each object of the first state, the
first object with the same id in the second agrees on SUR_ID and COUCHE. -/
def states_equal (state1 state2 : List Obj) : Bool :=
  state1.length == state2.length &&
  state1.all (fun o1 =>
    match findObj state2 o1.id with
    | none => false
    | some o2 => o1.sur == o2.sur && o1.couche == o2.couche)

/-- `state_to_string`: the canonical key, every object included. -/
def state_to_string (objects_data : List Obj) : Key :=
  sortById (objects_data.map (fun o => (o.id, o.sur, o.couche)))

end MB

namespace Inv

/-- `peut_etre_retire_de_dessus`: removable iff present, not table, nothing on top. -/
def peut_etre_retire_de_dessus (obj_id : Int) (objects_data : List Obj) : Bool :=
  match findObj objects_data obj_id with
  | none => false
  | some obj =>
    if formeOf obj == "TABLE" then false
    else (get_objects_on_top obj_id objects_data).length == 0

/-- `peut_etre_redresse`: can stand up iff present, not table, not cube,
currently lying, nothing on top. -/
def peut_etre_redresse (obj_id : Int) (objects_data : List Obj) : Bool :=
  match findObj objects_data obj_id with
  | none => false
  | some obj =>
    if formeOf obj == "TABLE" then false
    else if formeOf obj == "CUBE" then false
    else if !obj.couche then false
    else (get_objects_on_top obj_id objects_data).length == 0

/-- `peut_etre_couche_inverse`: can lie down iff present, not table, not cube,
currently standing, nothing on top. -/
def peut_etre_couche_inverse (obj_id : Int) (objects_data : List Obj) : Bool :=
  match findObj objects_data obj_id with
  | none => false
  | some obj =>
    if formeOf obj == "TABLE" then false
    else if formeOf obj == "CUBE" then false
    else if obj.couche then false
    else (get_objects_on_top obj_id objects_data).length == 0

/-- `redresser`: stand the object up after `peut_etre_redresse`; returns the
(possibly updated) state and the success flag. -/
def redresser (obj_id : Int) (objects_data : List Obj) : List Obj × Bool :=
  if !(peut_etre_redresse obj_id objects_data) then (objects_data, false)
  else
    match findObj objects_data obj_id with
    | none => (objects_data, false)
    | some _ =>
      (updateFirst (fun o => o.id == obj_id) (fun o => { o with couche := false })
        objects_data, true)

/-- `coucher_inverse`: lay the object down after `peut_etre_couche_inverse`. -/
def coucher_inverse (obj_id : Int) (objects_data : List Obj) : List Obj × Bool :=
  if !(peut_etre_couche_inverse obj_id objects_data) then (objects_data, false)
  else
    match findObj objects_data obj_id with
    | none => (objects_data, false)
    | some _ =>
      (updateFirst (fun o => o.id == obj_id) (fun o => { o with couche := true })
        objects_data, true)

/-- `get_all_possible_reverse_actions` of the inverse-search module: for each
removable object, a move_to onto every other object whose shape rule would
plausibly allow a forward receive; then stand_up and lay_down when possible. -/
def get_all_possible_reverse_actions (objects_data : List Obj) : List Act :=
  concatMap (fun obj =>
    (if peut_etre_retire_de_dessus obj.id objects_data then
      objects_data.filterMap (fun target =>
        if target.id != obj.id then
          let tf := formeOf target
          if tf == "TABLE" then some (Act.move_to obj.id target.id)
          else if tf == "CUBE" then
            (if (get_objects_on_top target.id objects_data).length == 0 then
              some (Act.move_to obj.id target.id)
            else none)
          else if tf == "CYLINDRE" && !target.couche then
            some (Act.move_to obj.id target.id)
          else if tf == "DONUT_SAUCISSE" && target.couche then
            some (Act.move_to obj.id target.id)
          else none
        else none)
    else []) ++
    (if peut_etre_redresse obj.id objects_data then [Act.stand_up obj.id] else []) ++
    (if peut_etre_couche_inverse obj.id objects_data then [Act.lay_down obj.id] else []))
    objects_data

/-- The state-and-success part of the move_to arm of `apply_reverse_action`:
only the removability of the mover is re-validated. -/
def move_to_update (objects_data : List Obj) (obj_id target_id : Int) : List Obj × Bool :=
  if !(peut_etre_retire_de_dessus obj_id objects_data) then (objects_data, false)
  else
    match findObj objects_data obj_id with
    | some _ =>
      (updateFirst (fun o => o.id == obj_id) (fun o => { o with sur := target_id })
        objects_data, true)
    | none => (objects_data, false)

/-- `apply_reverse_action` of the inverse-search module. -/
def apply_reverse_action (objects_data : List Obj) (action : Act) :
    Option (List Obj × Bool × String) :=
  match action with
  | .move_to obj_id target_id =>
    match move_to_update objects_data obj_id target_id with
    | (new_state, success) =>
      match findObj new_state obj_id, findObj new_state target_id with
      | some o, some t => some (new_state, success, "Déplacer " ++ o.nom ++ " sur " ++ t.nom)
      | _, _ => none
  | .stand_up obj_id =>
    match redresser obj_id objects_data with
    | (new_state, success) =>
      match findObj new_state obj_id with
      | some o => some (new_state, success, "Redresser " ++ o.nom)
      | none => none
  | .lay_down obj_id =>
    match coucher_inverse obj_id objects_data with
    | (new_state, success) =>
      match findObj new_state obj_id with
      | some o => some (new_state, success, "Coucher " ++ o.nom)
      | none => none
  | _ => some (objects_data, false, "Action inverse inconnue")

end Inv

namespace AP

/-- `peut_etre_retire_de_dessus` of the all-paths modules: nothing on top
(no existence or table check; callers iterate over non-table state objects). -/
def peut_etre_retire_de_dessus (obj_id : Int) (objects_data : List Obj) : Bool :=
  (objects_data.filter (fun o => o.sur == obj_id)).length == 0

/-- `redresser` of the all-paths modules: succeeds only when the object exists
and is currently lying. -/
def redresser (obj_id : Int) (objects_data : List Obj) : List Obj × Bool :=
  match findObj objects_data obj_id with
  | some o =>
    if o.couche then
      (updateFirst (fun x => x.id == obj_id) (fun x => { x with couche := false })
        objects_data, true)
    else (objects_data, false)
  | none => (objects_data, false)

/-- `coucher_inverse` of the all-paths modules: succeeds only when the object
exists and is currently standing. -/
def coucher_inverse (obj_id : Int) (objects_data : List Obj) : List Obj × Bool :=
  match findObj objects_data obj_id with
  | some o =>
    if !o.couche then
      (updateFirst (fun x => x.id == obj_id) (fun x => { x with couche := true })
        objects_data, true)
    else (objects_data, false)
  | none => (objects_data, false)

/-- The body of the `while current != 0` walk of `would_create_cycle`.  The fuel
strictly exceeds the number of iterations the Python loop can make (each
iteration either terminates or adds a fresh id to the visited set drawn from a
universe of at most length-plus-one ids), so the fallback at fuel zero is never
reached on any input the search produces. -/
def would_create_cycle_loop (obj_id : Int) (state : List Obj) :
    Nat → Int → List Int → Bool
  | 0, _, _ => false
  | fuel+1, current, visited =>
    if current == 0 then false
    else if visited.contains current || current == obj_id then true
    else
      match findObj state current with
      | none => false
      | some o => would_create_cycle_loop obj_id state fuel o.sur (visited ++ [current])

/-- `would_create_cycle`: walk the support chain from the target and report
whether the moved object (or a pre-existing loop) is met before the table. -/
def would_create_cycle (obj_id target_id : Int) (state : List Obj) : Bool :=
  would_create_cycle_loop obj_id state (state.length + 2) target_id []

/-- `get_all_possible_reverse_actions` of the all-paths modules: table objects
are skipped; move_to targets exclude the object itself, its current support and
any target whose placement would create a cycle; stand_up when lying, lay_down
when standing. -/
def get_all_possible_reverse_actions (state : List Obj) : List Act :=
  concatMap (fun obj =>
    if formeOf obj == "TABLE" then []
    else
      (if peut_etre_retire_de_dessus obj.id state then
        state.filterMap (fun target =>
          if target.id != obj.id && target.id != obj.sur then
            if !(would_create_cycle obj.id target.id state) then
              some (Act.move_to obj.id target.id)
            else none
          else none)
      else []) ++
      (if obj.couche then [Act.stand_up obj.id] else []) ++
      (if !obj.couche then [Act.lay_down obj.id] else []))
    state

/-- The state-and-success part of the move_to arm of the all-paths
`apply_reverse_action`. -/
def move_to_update (state : List Obj) (obj_id target_id : Int) : List Obj × Bool :=
  if !(peut_etre_retire_de_dessus obj_id state) then (state, false)
  else
    match findObj state obj_id with
    | some _ =>
      (updateFirst (fun o => o.id == obj_id) (fun o => { o with sur := target_id })
        state, true)
    | none => (state, false)

/-- `apply_reverse_action` of the all-paths modules. -/
def apply_reverse_action (state : List Obj) (action : Act) :
    Option (List Obj × Bool × String) :=
  match action with
  | .move_to obj_id target_id =>
    match move_to_update state obj_id target_id with
    | (new_state, success) =>
      match findObj new_state obj_id, findObj new_state target_id with
      | some o, some t => some (new_state, success, "Déplacer " ++ o.nom ++ " sur " ++ t.nom)
      | _, _ => none
  | .stand_up obj_id =>
    match redresser obj_id state with
    | (new_state, success) =>
      match findObj new_state obj_id with
      | some o => some (new_state, success, "Redresser " ++ o.nom)
      | none => none
  | .lay_down obj_id =>
    match coucher_inverse obj_id state with
    | (new_state, success) =>
      match findObj new_state obj_id with
      | some o => some (new_state, success, "Coucher " ++ o.nom)
      | none => none
  | _ => some (state, false, "Action inverse inconnue")

end AP

/-- The support chain from an id: the ids visited when repeatedly following
SUR_ID references, stopping at the table, at a missing object, or when the fuel
runs out.  This is the claim-level notion of "the support chain from t up to
the table". -/
def supportChain (s : List Obj) : Nat → Int → List Int
  | 0, i => [i]
  | fuel+1, i =>
    i :: (match findObj s i with
      | none => []
      | some o => if formeOf o == "TABLE" then [] else supportChain s fuel o.sur)

/-- Fuel-bounded test that the support walk from an id reaches a table object. -/
def reachesTable (s : List Obj) : Nat → Int → Bool
  | 0, i =>
    match findObj s i with
    | none => false
    | some o => formeOf o == "TABLE"
  | fuel+1, i =>
    match findObj s i with
    | none => false
    | some o => formeOf o == "TABLE" || reachesTable s fuel o.sur

/-- Iterate the support relation: one step goes from a present non-table object
to its SUR_ID; the walk is undefined past the table or a missing object. -/
def iterSup (s : List Obj) : Nat → Int → Option Int
  | 0, i => some i
  | m+1, i =>
    match findObj s i with
    | none => none
    | some o => if formeOf o == "TABLE" then none else iterSup s m o.sur

/-- Decidable well-formedness of a state: the support walk from every object
reaches the table within length-many steps. -/
def wfB (s : List Obj) : Bool := s.all (fun o => reachesTable s s.length o.id)

/-- One legal forward step: an action emitted by the forward generator whose
application succeeds. -/
def FwdStep (s s1 : List Obj) : Prop :=
  ∃ a, a ∈ MB.get_all_possible_actions s ∧
    ∃ d, MB.apply_action s a = some (s1, true, d)

/-- One legal reverse step: an action emitted by the reverse generator of the
inverse-search module whose application succeeds. -/
def RevStep (s s1 : List Obj) : Prop :=
  ∃ a, a ∈ Inv.get_all_possible_reverse_actions s ∧
    ∃ d, Inv.apply_reverse_action s a = some (s1, true, d)

/-- One step of either kind. -/
def GenStep (s s1 : List Obj) : Prop := FwdStep s s1 ∨ RevStep s s1

/-- n-step reachability by legal forward steps. -/
def ReachN (start : List Obj) : Nat → List Obj → Prop
  | 0, x => x = start
  | n+1, x => ∃ y, ReachN start n y ∧ FwdStep y x

/-- The id, nom and forme of every object in list order: the part of a state
that no action ever changes. -/
def skeleton (s : List Obj) : List (Int × String × String) :=
  s.map (fun o => (o.id, o.nom, o.forme))

/-- One step of a solution path: the action together with its description. -/
structure PathStep where
  action : Act
  description : String
deriving Repr, DecidableEq

/-- A node of the search graph built by GraphSearchJSON.create_node. -/
structure Node where
  id : Nat
  parent : Option Nat
  children : List Nat
  states : List Obj
  is_goal : Bool
  action : Option Act
  description : String
  depth : Nat
  state_string : Key
deriving Repr, DecidableEq

/-- The mutable attributes of a GraphSearchJSON instance.  The Python visited
set of strings is modelled as a list of keys in insertion order; only
membership is ever queried. -/
structure GraphSearchJSON where
  graph_data : List Node
  node_counter : Nat
  visited_states : List Key
deriving Repr, DecidableEq

/-- `GraphSearchJSON.create_node`: allocate the next node, append it, and link
it into the children of its parent.  `gg` is the global goal_state consulted
for the is_goal flag (`none` models an unset global). -/
def create_node (g : GraphSearchJSON) (gg : Option (List Obj)) (state : List Obj)
    (parent : Option Nat) (action : Option Act) (description : String) (depth : Nat) :
    Node × GraphSearchJSON :=
  let node_id := g.node_counter
  let is_goal := match gg with | some gs => MB.states_equal state gs | none => false
  let node : Node :=
    ⟨node_id, parent, [], state, is_goal, action, description, depth,
      MB.state_to_string state⟩
  let gd := g.graph_data ++ [node]
  let gd :=
    match parent with
    | some pid =>
      updateFirst (fun n => n.id == pid)
        (fun n => { n with children := n.children ++ [node_id] }) gd
    | none => gd
  (node, ⟨gd, node_id + 1, g.visited_states⟩)

/-- `GraphSearchJSON.reconstruct_path`: walk parent links to the root,
prepending one step per node that carries an action.  The Python loop has no
bound; the fuel dominates the length of every parent chain the search builds,
and `none` models a walk that would not terminate. -/
def reconstruct_path (graph : List Node) : Nat → Option Nat → List PathStep → Option (List PathStep)
  | _, none, acc => some acc
  | 0, some _, _ => none
  | fuel+1, some nid, acc =>
    match graph.find? (fun n => n.id == nid) with
    | none => some acc
    | some n =>
      match n.action with
      | some a =>
        reconstruct_path graph fuel n.parent ({ action := a, description := n.description } :: acc)
      | none => reconstruct_path graph fuel n.parent acc

/-- The inner `for action in possible_actions` loop of the BFS: apply each
action to the dequeued state, skip failures and already-visited keys, record
the key, create the child node and collect the queue entry. -/
def expandLoop (gg : Option (List Obj)) (cur : List Obj) (nid d : Nat) :
    List Act → GraphSearchJSON → List (Nat × List Obj × Nat) →
    Option (GraphSearchJSON × List (Nat × List Obj × Nat))
  | [], g, adds => some (g, adds)
  | a :: rest, g, adds =>
    match MB.apply_action cur a with
    | none => none
    | some (new_state, success, description) =>
      if !success then expandLoop gg cur nid d rest g adds
      else
        if g.visited_states.contains (MB.state_to_string new_state) then
          expandLoop gg cur nid d rest g adds
        else
          match create_node
              ⟨g.graph_data, g.node_counter,
                g.visited_states ++ [MB.state_to_string new_state]⟩
              gg new_state (some nid) (some a) description (d+1) with
          | (node, g2) => expandLoop gg cur nid d rest g2 (adds ++ [(node.id, new_state, d+1)])

/-- The `while queue` loop of breadth_first_search_with_graph: discard entries
at the depth bound, record a solution when the dequeued state equals the goal,
otherwise expand.  The fuel models the (always terminating) Python loop;
`none` is returned only when the fuel runs out or a lookup inside
`apply_action` or `reconstruct_path` would raise. -/
def bfsLoop (gg : Option (List Obj)) (goal : List Obj) (max_depth : Nat) :
    Nat → List (Nat × List Obj × Nat) → GraphSearchJSON → List (List PathStep) →
    Option (List (List PathStep) × GraphSearchJSON)
  | 0, _, _, _ => none
  | _+1, [], g, sols => some (sols, g)
  | fuel+1, (nid, cur, d) :: rest, g, sols =>
    if max_depth ≤ d then bfsLoop gg goal max_depth fuel rest g sols
    else if MB.states_equal cur goal then
      match reconstruct_path g.graph_data g.graph_data.length (some nid) [] with
      | none => none
      | some path => bfsLoop gg goal max_depth fuel rest g (sols ++ [path])
    else
      match expandLoop gg cur nid d (MB.get_all_possible_actions cur) g [] with
      | none => none
      | some (g2, adds) => bfsLoop gg goal max_depth fuel (rest ++ adds) g2 sols

/-- `GraphSearchJSON.breadth_first_search_with_graph`: create the root node,
mark the start key visited, and run the loop.  The global goal_state consulted
by create_node is the goal argument, as set up by the main function of the
module. -/
def breadth_first_search_with_graph (fuel : Nat) (start_state goal_state : List Obj)
    (max_depth : Nat) : Option (List (List PathStep) × GraphSearchJSON) :=
  let g0 : GraphSearchJSON := ⟨[], 0, []⟩
  let r := create_node g0 (some goal_state) start_state none none "Initial state" 0
  let g1 : GraphSearchJSON :=
    ⟨r.2.graph_data, r.2.node_counter, r.2.visited_states ++ [MB.state_to_string start_state]⟩
  bfsLoop (some goal_state) goal_state max_depth fuel [(r.1.id, start_state, 0)] g1 []

/-- Concrete fixtures used by witnesses and counterexamples. -/
def exTable : Obj := ⟨0, "Table", "TABLE", 0, false⟩

/-- Scenario A start: two cubes stacked on the table. -/
def exStartA : List Obj :=
  [exTable, ⟨1, "CubeA", "CUBE", 0, false⟩, ⟨2, "CubeB", "CUBE", 1, false⟩]

/-- Scenario A goal: both cubes directly on the table. -/
def exGoalA : List Obj :=
  [exTable, ⟨1, "CubeA", "CUBE", 0, false⟩, ⟨2, "CubeB", "CUBE", 0, false⟩]

/-- Three loose cubes on the table. -/
def exStartC3 : List Obj :=
  [exTable, ⟨1, "CubeA", "CUBE", 0, false⟩, ⟨2, "CubeB", "CUBE", 0, false⟩,
   ⟨3, "CubeC", "CUBE", 0, false⟩]

/-- A goal no reachable state can equal (the object counts differ). -/
def exGoalNone : List Obj := [exTable]

/-- A start state with a dangling support reference. -/
def exDangling : List Obj := [exTable, ⟨1, "CubeA", "CUBE", 99, false⟩]

/-- A start state whose support graph is cyclic. -/
def exCyclic : List Obj :=
  [exTable, ⟨1, "CubeA", "CUBE", 2, false⟩, ⟨2, "CubeB", "CUBE", 1, false⟩]

/-- A standing cylinder on the table. -/
def exC5 : List Obj := [exTable, ⟨1, "Cylindre", "CYLINDRE", 0, false⟩]

/-- A movable cube next to a lying cylinder (which cannot receive). -/
def exC6 : List Obj :=
  [exTable, ⟨1, "CubeA", "CUBE", 0, false⟩, ⟨2, "Cylindre", "CYLINDRE", 0, true⟩]

/-- The fields of a Node that the search logic reads (children links are only
written, for the visualization export). -/
structure NodeData where
  id : Nat
  parent : Option Nat
  states : List Obj
  action : Option Act
  description : String
  depth : Nat
  state_string : Key
deriving Repr, DecidableEq

/-- Projection of a Node to its logically relevant fields. -/
def nd (n : Node) : NodeData :=
  ⟨n.id, n.parent, n.states, n.action, n.description, n.depth, n.state_string⟩

/-- The projected arena of a search instance. -/
def gdata (g : GraphSearchJSON) : List NodeData := g.graph_data.map nd

/-- A queue entry of the embedded BFS: node id, state, depth. -/
abbrev QEntry := Nat × List Obj × Nat

/-- Loop invariant of the embedded breadth_first_search_with_graph, over the
projected arena.  It ties every node to a real forward path from the start
state, keeps node keys unique, keeps queue depths sorted within one BFS level
of each other, and records that every fully processed node has either been
discarded at the depth bound, matched the goal, or had all its legal successors
entered into the arena at depth at most one greater. -/
structure BfsInv (start goal : List Obj) (maxd : Nat) (queue : List QEntry)
    (gd : List NodeData) (visited : List Key) (counter : Nat)
    (sols : List (List PathStep)) : Prop where
  counter_eq : counter = gd.length
  ids : gd.map NodeData.id = List.range gd.length
  node_reach : ∀ n ∈ gd, ReachN start n.depth n.states
  node_key : ∀ n ∈ gd, n.state_string = MB.state_to_string n.states
  node_skel : ∀ n ∈ gd, skeleton n.states = skeleton start
  node_parent : ∀ n ∈ gd,
    (n.parent = none → n.action = none ∧ n.depth = 0) ∧
    (∀ p, n.parent = some p →
      (∃ np ∈ gd, np.id = p ∧ n.depth = np.depth + 1) ∧ p < n.id ∧ n.action ≠ none)
  visited_nodes : ∀ k ∈ visited, ∃ n ∈ gd, n.state_string = k
  nodes_visited : ∀ n ∈ gd, n.state_string ∈ visited
  keys_nodup : (gd.map NodeData.state_string).Nodup
  queue_nodes : ∀ e ∈ queue, ∃ n ∈ gd,
    n.id = e.1 ∧ n.states = e.2.1 ∧ n.depth = e.2.2
  queue_sorted : List.Pairwise (fun e1 e2 => e1.2.2 ≤ e2.2.2) queue
  queue_keys_nodup : (queue.map (fun e => MB.state_to_string e.2.1)).Nodup
  graph_queue_depth : ∀ n ∈ gd, ∀ e ∈ queue, n.depth ≤ e.2.2 + 1
  expanded : ∀ n ∈ gd,
    (∃ e ∈ queue, e.1 = n.id) ∨ maxd ≤ n.depth ∨
    MB.states_equal n.states goal = true ∨
    (∀ x, FwdStep n.states x → ∃ m ∈ gd, m.states = x ∧ m.depth ≤ n.depth + 1)
  sols_graph : ∀ p ∈ sols, ∃ n ∈ gd,
    MB.states_equal n.states goal = true ∧ n.depth < maxd ∧ p.length = n.depth
  sols_card : sols = [] ∨
    (sols.length = 1 ∧ ∀ e ∈ queue, MB.states_equal e.2.1 goal = false)

/-- Invariant of the inner expansion loop: the full arena bookkeeping of
`BfsInv`, with the dequeued node (id nid, state cur, depth d) temporarily
excused from the expansion obligation while its successors are being added. -/
structure EMid (start goal : List Obj) (maxd nid : Nat) (cur : List Obj) (d : Nat)
    (rest : List QEntry) (sols : List (List PathStep))
    (g : GraphSearchJSON) (adds : List QEntry) : Prop where
  counter_eq : g.node_counter = (gdata g).length
  ids : (gdata g).map NodeData.id = List.range (gdata g).length
  node_reach : ∀ n ∈ gdata g, ReachN start n.depth n.states
  node_key : ∀ n ∈ gdata g, n.state_string = MB.state_to_string n.states
  node_skel : ∀ n ∈ gdata g, skeleton n.states = skeleton start
  node_parent : ∀ n ∈ gdata g,
    (n.parent = none → n.action = none ∧ n.depth = 0) ∧
    (∀ p, n.parent = some p →
      (∃ np ∈ gdata g, np.id = p ∧ n.depth = np.depth + 1) ∧ p < n.id ∧ n.action ≠ none)
  visited_nodes : ∀ k ∈ g.visited_states, ∃ n ∈ gdata g, n.state_string = k
  nodes_visited : ∀ n ∈ gdata g, n.state_string ∈ g.visited_states
  keys_nodup : ((gdata g).map NodeData.state_string).Nodup
  queue_nodes : ∀ e ∈ rest ++ adds, ∃ n ∈ gdata g,
    n.id = e.1 ∧ n.states = e.2.1 ∧ n.depth = e.2.2
  queue_keys_nodup : ((rest ++ adds).map (fun e => MB.state_to_string e.2.1)).Nodup
  depth_bound : ∀ n ∈ gdata g, n.depth ≤ d + 1
  nid_node : ∃ np ∈ gdata g, np.id = nid ∧ np.states = cur ∧ np.depth = d
  adds_depth : ∀ e ∈ adds, e.2.2 = d + 1
  expanded_mid : ∀ n ∈ gdata g, n.id = nid ∨
    (∃ e ∈ rest ++ adds, e.1 = n.id) ∨ maxd ≤ n.depth ∨
    MB.states_equal n.states goal = true ∨
    (∀ x, FwdStep n.states x → ∃ m ∈ gdata g, m.states = x ∧ m.depth ≤ n.depth + 1)
  sols_graph : ∀ p ∈ sols, ∃ n ∈ gdata g,
    MB.states_equal n.states goal = true ∧ n.depth < maxd ∧ p.length = n.depth
  sols_mid : sols = [] ∨
    (sols.length = 1 ∧ ∀ e ∈ rest ++ adds, MB.states_equal e.2.1 goal = false)

theorem mem_concatMap {f : α → List β} {l : List α} {b : β} :
    b ∈ concatMap f l ↔ ∃ a ∈ l, b ∈ f a := by
  induction l with
  | nil => simp [concatMap]
  | cons x xs ih => simp [concatMap, List.mem_append, ih]

theorem findObj_mem {s : List Obj} {i : Int} {o : Obj} (h : findObj s i = some o) :
    o ∈ s ∧ o.id = i := by
  refine ⟨List.mem_of_find?_eq_some h, ?_⟩
  simpa using List.find?_some h

theorem findObj_self {s : List Obj} (hnd : (s.map Obj.id).Nodup) {o : Obj} (ho : o ∈ s) :
    findObj s o.id = some o := by
  induction s with
  | nil => cases ho
  | cons x xs ih =>
    rcases List.mem_cons.mp ho with rfl | ho2
    · simp [findObj, List.find?]
    · have hnd2 : x.id ∉ xs.map Obj.id ∧ (xs.map Obj.id).Nodup := by
        rw [List.map_cons, List.nodup_cons] at hnd
        exact hnd
      have hx : o.id ∈ xs.map Obj.id := List.mem_map_of_mem _ ho2
      have hne : (x.id == o.id) = false := by
        simp only [beq_eq_false_iff_ne]
        intro he
        exact hnd2.1 (he ▸ hx)
      simpa [findObj, List.find?, hne] using ih hnd2.2 ho2

theorem on_top_iff {i : Int} {s : List Obj} :
    ((get_objects_on_top i s).length == 0) = true ↔ ∀ x ∈ s, x.sur ≠ i := by
  simp [get_objects_on_top, List.length_eq_zero, List.filter_eq_nil_iff]

theorem updateFirst_mem {p : α → Bool} {f : α → α} {l : List α} {x : α}
    (h : x ∈ updateFirst p f l) : x ∈ l ∨ ∃ a, a ∈ l ∧ p a = true ∧ x = f a := by
  induction l with
  | nil => cases h
  | cons a as ih =>
    by_cases hp : p a = true
    · simp only [updateFirst, hp, if_true] at h
      rcases List.mem_cons.mp h with rfl | h2
      · exact Or.inr ⟨a, List.mem_cons_self a as, hp, rfl⟩
      · exact Or.inl (List.mem_cons_of_mem _ h2)
    · simp only [updateFirst, hp, if_false] at h
      rcases List.mem_cons.mp h with rfl | h2
      · exact Or.inl (List.mem_cons_self x as)
      · rcases ih h2 with h3 | ⟨b, hb1, hb2, hb3⟩
        · exact Or.inl (List.mem_cons_of_mem _ h3)
        · exact Or.inr ⟨b, List.mem_cons_of_mem _ hb1, hb2, hb3⟩

theorem updateFirst_length {p : α → Bool} {f : α → α} (l : List α) :
    (updateFirst p f l).length = l.length := by
  induction l with
  | nil => rfl
  | cons a as ih =>
    by_cases hp : p a = true <;> simp [updateFirst, hp, ih]

theorem findObj_updateFirst_ne {f : Obj → Obj} (hf : ∀ x, (f x).id = x.id)
    {i j : Int} (hne : j ≠ i) (l : List Obj) :
    findObj (updateFirst (fun o => o.id == i) f l) j = findObj l j := by
  induction l with
  | nil => rfl
  | cons a as ih =>
    by_cases hp : (a.id == i) = true
    · have hai : a.id = i := by simpa using hp
      have h1 : ((f a).id == j) = false := by
        simp only [beq_eq_false_iff_ne, hf, hai]
        exact fun he => hne he.symm
      have h2 : (a.id == j) = false := by
        simp only [beq_eq_false_iff_ne, hai]
        exact fun he => hne he.symm
      simp [updateFirst, hp, findObj, List.find?, h1, h2]
    · by_cases hj : (a.id == j) = true
      · simp [updateFirst, hp, findObj, List.find?, hj]
      · simp only [updateFirst, hp, if_false]
        simpa [findObj, List.find?, hj] using ih

theorem findObj_updateFirst_self {f : Obj → Obj} (hf : ∀ x, (f x).id = x.id)
    {i : Int} {l : List Obj} {a : Obj} (h : findObj l i = some a) :
    findObj (updateFirst (fun o => o.id == i) f l) i = some (f a) := by
  induction l with
  | nil => cases h
  | cons b bs ih =>
    by_cases hp : (b.id == i) = true
    · have hb : b = a := by
        simpa [findObj, List.find?, hp] using h
      subst hb
      have : ((f b).id == i) = true := by simpa [hf] using hp
      simp [updateFirst, hp, findObj, List.find?, this]
    · have h2 : findObj bs i = some a := by
        simpa [findObj, List.find?, hp] using h
      simp only [updateFirst, hp, if_false]
      simpa [findObj, List.find?, hp] using ih h2

theorem findObj_updateFirst_none {f : Obj → Obj} {i : Int} {l : List Obj}
    (h : findObj l i = none) :
    findObj (updateFirst (fun o => o.id == i) f l) i = none := by
  induction l with
  | nil => rfl
  | cons b bs ih =>
    by_cases hb : (b.id == i) = true
    · exfalso; simp [findObj, List.find?, hb] at h
    · have hb2 : (b.id == i) = false := by simpa using hb
      have h2 : findObj bs i = none := by simpa [findObj, List.find?, hb2] using h
      simp only [updateFirst, hb2, Bool.false_eq_true, if_false]
      simpa [findObj, List.find?, hb2] using ih h2

theorem findObj_updateFirst_cases {f : Obj → Obj} (hf : ∀ x, (f x).id = x.id)
    (i j : Int) (l : List Obj) :
    findObj (updateFirst (fun o => o.id == i) f l) j = findObj l j ∨
    ∃ a, findObj l j = some a ∧
      findObj (updateFirst (fun o => o.id == i) f l) j = some (f a) := by
  by_cases hij : j = i
  · subst hij
    cases h : findObj l j with
    | none => exact Or.inl (findObj_updateFirst_none h)
    | some a => exact Or.inr ⟨a, rfl, findObj_updateFirst_self hf h⟩
  · exact Or.inl (findObj_updateFirst_ne hf hij l)

theorem updateFirst_eq_self {p : α → Bool} {f : α → α} {l : List α}
    (hfix : ∀ a, a ∈ l → p a = true → f a = a) : updateFirst p f l = l := by
  induction l with
  | nil => rfl
  | cons a as ih =>
    by_cases hp : p a = true
    · simp [updateFirst, hp, hfix a (List.mem_cons_self a as) hp]
    · simp [updateFirst, hp, ih (fun b hb hpb => hfix b (List.mem_cons_of_mem _ hb) hpb)]

theorem updateFirst_updateFirst {p : α → Bool} {f g : α → α}
    (hpf : ∀ x, p (f x) = p x) (l : List α) :
    updateFirst p g (updateFirst p f l) = updateFirst p (fun x => g (f x)) l := by
  induction l with
  | nil => rfl
  | cons a as ih =>
    by_cases hp : p a = true
    · simp [updateFirst, hp, hpf]
    · simp [updateFirst, hp, ih]

theorem skeleton_updateFirst {f : Obj → Obj}
    (hf : ∀ x, (f x).id = x.id ∧ (f x).nom = x.nom ∧ (f x).forme = x.forme)
    (p : Obj → Bool) (l : List Obj) :
    skeleton (updateFirst p f l) = skeleton l := by
  induction l with
  | nil => rfl
  | cons a as ih =>
    by_cases hp : p a = true
    · simp [updateFirst, hp, skeleton, (hf a).1, (hf a).2.1, (hf a).2.2]
    · simp only [updateFirst, hp, if_false]
      simpa [skeleton] using ih

theorem insertSorted_length (a : Int × Int × Bool) (l : Key) :
    (insertSorted a l).length = l.length + 1 := by
  induction l with
  | nil => rfl
  | cons b bs ih => by_cases h : a.1 ≤ b.1 <;> simp [insertSorted, h, ih]

theorem insertSorted_inj {a b : Int × Int × Bool} {l1 l2 : Key} (hab : a.1 = b.1)
    (h : insertSorted a l1 = insertSorted b l2) : a = b ∧ l1 = l2 := by
  induction l1 generalizing l2 with
  | nil =>
    cases l2 with
    | nil =>
      simp only [insertSorted, List.cons.injEq, and_true] at h
      exact ⟨h, rfl⟩
    | cons c cs =>
      exfalso
      have hlen := congrArg List.length h
      by_cases hc : b.1 ≤ c.1 <;>
        simp [insertSorted, hc, insertSorted_length] at hlen
  | cons c cs ih =>
    cases l2 with
    | nil =>
      exfalso
      have hlen := congrArg List.length h
      by_cases hc : a.1 ≤ c.1 <;>
        simp [insertSorted, hc, insertSorted_length] at hlen
    | cons d ds =>
      by_cases h1 : a.1 ≤ c.1 <;> by_cases h2 : b.1 ≤ d.1
      · simp only [insertSorted, h1, h2, if_true, List.cons.injEq] at h
        exact ⟨h.1, by rw [h.2.1, h.2.2]⟩
      · exfalso
        simp only [insertSorted, h1, h2, if_true, if_false, List.cons.injEq] at h
        have hda : a = d := h.1
        have hlt : d.1 < b.1 := lt_of_not_ge h2
        rw [← hda, hab] at hlt
        exact lt_irrefl _ hlt
      · exfalso
        simp only [insertSorted, h1, h2, if_true, if_false, List.cons.injEq] at h
        have hcb : c = b := h.1
        have hlt : c.1 < a.1 := lt_of_not_ge h1
        rw [hcb, ← hab] at hlt
        exact lt_irrefl _ hlt
      · simp only [insertSorted, h1, h2, if_false, List.cons.injEq] at h
        obtain ⟨he, hl⟩ := ih h.2
        exact ⟨he, by rw [h.1, hl]⟩

theorem sortById_inj {l1 l2 : Key} (hfst : l1.map Prod.fst = l2.map Prod.fst)
    (h : sortById l1 = sortById l2) : l1 = l2 := by
  induction l1 generalizing l2 with
  | nil =>
    cases l2 with
    | nil => rfl
    | cons b bs => simp at hfst
  | cons a as ih =>
    cases l2 with
    | nil => simp at hfst
    | cons b bs =>
      simp only [List.map_cons, List.cons.injEq] at hfst
      obtain ⟨hab, hrest⟩ := hfst
      simp only [sortById] at h
      obtain ⟨he, hl⟩ := insertSorted_inj hab h
      rw [he, ih hrest hl]

theorem eq_of_skeleton_and_triples {s1 s2 : List Obj}
    (hsk : skeleton s1 = skeleton s2)
    (ht : s1.map (fun o => (o.id, o.sur, o.couche))
        = s2.map (fun o => (o.id, o.sur, o.couche))) :
    s1 = s2 := by
  induction s1 generalizing s2 with
  | nil =>
    cases s2 with
    | nil => rfl
    | cons b bs => simp [skeleton] at hsk
  | cons a as ih =>
    cases s2 with
    | nil => simp [skeleton] at hsk
    | cons b bs =>
      simp only [skeleton, List.map_cons, List.cons.injEq, Prod.mk.injEq] at hsk ht
      obtain ⟨⟨hid, hnom, hforme⟩, hsk2⟩ := hsk
      obtain ⟨⟨-, hsur, hcouche⟩, ht2⟩ := ht
      have hab : a = b := by
        cases a; cases b
        simp_all
      rw [hab, ih hsk2 ht2]

theorem state_key_inj {s1 s2 : List Obj} (hsk : skeleton s1 = skeleton s2)
    (h : MB.state_to_string s1 = MB.state_to_string s2) : s1 = s2 := by
  have hfst : (s1.map (fun o => (o.id, o.sur, o.couche))).map Prod.fst
      = (s2.map (fun o => (o.id, o.sur, o.couche))).map Prod.fst := by
    have := congrArg (List.map Prod.fst) hsk
    simpa [skeleton, List.map_map, Function.comp] using this
  exact eq_of_skeleton_and_triples hsk (sortById_inj hfst h)

theorem states_equal_refl {s : List Obj} (hnd : (s.map Obj.id).Nodup) :
    MB.states_equal s s = true := by
  unfold MB.states_equal
  simp only [Bool.and_eq_true, beq_iff_eq, List.all_eq_true]
  refine ⟨by simp, fun o1 ho1 => ?_⟩
  rw [findObj_self hnd ho1]
  simp

theorem states_equal_mem {x g : List Obj} (h : MB.states_equal x g = true) :
    x.length = g.length ∧ ∀ o ∈ x, ∃ og, findObj g o.id = some og ∧
      o.sur = og.sur ∧ o.couche = og.couche := by
  unfold MB.states_equal at h
  simp only [Bool.and_eq_true, beq_iff_eq, List.all_eq_true] at h
  refine ⟨h.1, fun o ho => ?_⟩
  have h2 := h.2 o ho
  cases hf : findObj g o.id with
  | none => rw [hf] at h2; cases h2
  | some og =>
    rw [hf] at h2
    simp only [Bool.and_eq_true, beq_iff_eq] at h2
    exact ⟨og, rfl, h2.1, h2.2⟩

theorem eq_of_pointwise {g : List Obj} : ∀ {x y : List Obj},
    skeleton x = skeleton y →
    (∀ o ∈ x, ∃ og, findObj g o.id = some og ∧ o.sur = og.sur ∧ o.couche = og.couche) →
    (∀ o ∈ y, ∃ og, findObj g o.id = some og ∧ o.sur = og.sur ∧ o.couche = og.couche) →
    x = y := by
  intro x
  induction x with
  | nil =>
    intro y hsk _ _
    cases y with
    | nil => rfl
    | cons b bs => simp [skeleton] at hsk
  | cons a as ih =>
    intro y hsk hx hy
    cases y with
    | nil => simp [skeleton] at hsk
    | cons b bs =>
      simp only [skeleton, List.map_cons, List.cons.injEq, Prod.mk.injEq] at hsk
      obtain ⟨⟨hid, hnom, hforme⟩, hsk2⟩ := hsk
      obtain ⟨og, hog, hsa, hca⟩ := hx a (List.mem_cons_self a as)
      obtain ⟨og2, hog2, hsb, hcb⟩ := hy b (List.mem_cons_self b bs)
      rw [hid] at hog
      rw [hog] at hog2
      have hogeq : og = og2 := Option.some.inj hog2
      have hab : a = b := by
        cases a; cases b
        simp_all
      rw [hab, ih hsk2 (fun o ho => hx o (List.mem_cons_of_mem _ ho))
        (fun o ho => hy o (List.mem_cons_of_mem _ ho))]

theorem states_equal_unique {x y g : List Obj} (hsk : skeleton x = skeleton y)
    (hx : MB.states_equal x g = true) (hy : MB.states_equal y g = true) : x = y :=
  eq_of_pointwise hsk (states_equal_mem hx).2 (states_equal_mem hy).2

theorem reachesTable_congr_couche {f : Obj → Obj}
    (hf : ∀ x, (f x).id = x.id ∧ (f x).sur = x.sur ∧ (f x).forme = x.forme)
    (i : Int) (s : List Obj) :
    ∀ k j, reachesTable (updateFirst (fun o => o.id == i) f s) k j = reachesTable s k j := by
  intro k
  induction k with
  | zero =>
    intro j
    rcases findObj_updateFirst_cases (fun x => (hf x).1) i j s with hc | ⟨a, ha1, ha2⟩
    · cases hfind : findObj s j with
      | none => rw [hfind] at hc; simp [reachesTable, hc, hfind]
      | some o => rw [hfind] at hc; simp [reachesTable, hc, hfind]
    · simp [reachesTable, ha1, ha2, formeOf, (hf a).2.2]
  | succ k ih =>
    intro j
    rcases findObj_updateFirst_cases (fun x => (hf x).1) i j s with hc | ⟨a, ha1, ha2⟩
    · cases hfind : findObj s j with
      | none => rw [hfind] at hc; simp [reachesTable, hc, hfind]
      | some o => rw [hfind] at hc; simp [reachesTable, hc, hfind, ih]
    · simp [reachesTable, ha1, ha2, formeOf, (hf a).2.2, (hf a).2.1, ih]

theorem reachesTable_updateSur {i t : Int} {s : List Obj}
    (hno : ∀ x ∈ s, x.sur ≠ i) :
    ∀ k j, j ≠ i →
      reachesTable (updateFirst (fun o => o.id == i) (fun o => { o with sur := t }) s) k j
        = reachesTable s k j := by
  intro k
  induction k with
  | zero =>
    intro j hj
    have hc := findObj_updateFirst_ne (f := fun o => { o with sur := t })
      (fun x => rfl) hj s
    cases hfind : findObj s j with
    | none => rw [hfind] at hc; simp [reachesTable, hc, hfind]
    | some o => rw [hfind] at hc; simp [reachesTable, hc, hfind]
  | succ k ih =>
    intro j hj
    have hc := findObj_updateFirst_ne (f := fun o => { o with sur := t })
      (fun x => rfl) hj s
    cases hfind : findObj s j with
    | none => rw [hfind] at hc; simp [reachesTable, hc, hfind]
    | some o =>
      rw [hfind] at hc
      have ho := findObj_mem hfind
      simp [reachesTable, hc, hfind, ih o.sur (hno o ho.1)]

theorem deplace_spec {a : Int} {s : List Obj} (h : MB.peut_etre_deplace a s = true) :
    ∃ o, findObj s a = some o ∧ (formeOf o == "TABLE") = false ∧ ∀ x ∈ s, x.sur ≠ a := by
  unfold MB.peut_etre_deplace at h
  split at h
  next heq => cases h
  next o heq =>
    by_cases hT : (formeOf o == "TABLE") = true
    · rw [if_pos hT] at h; cases h
    · rw [if_neg hT] at h
      exact ⟨o, heq, by simpa using hT, on_top_iff.mp h⟩

theorem retire_spec {a : Int} {s : List Obj} (h : Inv.peut_etre_retire_de_dessus a s = true) :
    ∃ o, findObj s a = some o ∧ (formeOf o == "TABLE") = false ∧ ∀ x ∈ s, x.sur ≠ a := by
  unfold Inv.peut_etre_retire_de_dessus at h
  split at h
  next heq => cases h
  next o heq =>
    by_cases hT : (formeOf o == "TABLE") = true
    · rw [if_pos hT] at h; cases h
    · rw [if_neg hT] at h
      exact ⟨o, heq, by simpa using hT, on_top_iff.mp h⟩

theorem recevoir_find {t : Int} {s : List Obj}
    (h : MB.peut_recevoir_deplacement t s = true) : ∃ o, findObj s t = some o := by
  unfold MB.peut_recevoir_deplacement at h
  split at h
  next heq => cases h
  next o heq => exact ⟨o, heq⟩

theorem mem_gen_move {s : List Obj} {a t : Int}
    (h : Act.move a t ∈ MB.get_all_possible_actions s) :
    MB.peut_etre_deplace a s = true ∧ MB.peut_recevoir_deplacement t s = true ∧
      t ≠ a ∧ ∃ x ∈ s, x.id = t := by
  unfold MB.get_all_possible_actions at h
  obtain ⟨obj, hobj, hmem⟩ := mem_concatMap.mp h
  rcases List.mem_append.mp hmem with h1 | h2
  · by_cases hd : MB.peut_etre_deplace obj.id s = true
    · rw [if_pos hd] at h1
      obtain ⟨target, htmem, hguard⟩ := List.mem_filterMap.mp h1
      by_cases hg : (target.id != obj.id && MB.peut_recevoir_deplacement target.id s) = true
      · rw [if_pos hg] at hguard
        obtain ⟨ha, ht⟩ : obj.id = a ∧ target.id = t := by
          injection hguard with hval
          injection hval with hv1 hv2
          exact ⟨hv1, hv2⟩
        simp only [Bool.and_eq_true, bne_iff_ne] at hg
        subst ha; subst ht
        exact ⟨hd, hg.2, hg.1, target, htmem, rfl⟩
      · rw [if_neg hg] at hguard; cases hguard
    · rw [if_neg hd] at h1; cases h1
  · by_cases hc : MB.peut_etre_couche obj.id s = true
    · rw [if_pos hc] at h2; simp at h2
    · rw [if_neg hc] at h2; cases h2

theorem mem_gen_lay_down {s : List Obj} {a : Int}
    (h : Act.lay_down a ∈ MB.get_all_possible_actions s) :
    MB.peut_etre_couche a s = true := by
  unfold MB.get_all_possible_actions at h
  obtain ⟨obj, hobj, hmem⟩ := mem_concatMap.mp h
  rcases List.mem_append.mp hmem with h1 | h2
  · by_cases hd : MB.peut_etre_deplace obj.id s = true
    · rw [if_pos hd] at h1
      obtain ⟨target, htmem, hguard⟩ := List.mem_filterMap.mp h1
      by_cases hg : (target.id != obj.id && MB.peut_recevoir_deplacement target.id s) = true
      · rw [if_pos hg] at hguard; cases hguard
      · rw [if_neg hg] at hguard; cases hguard
    · rw [if_neg hd] at h1; cases h1
  · by_cases hc : MB.peut_etre_couche obj.id s = true
    · rw [if_pos hc] at h2
      have ha : a = obj.id := by
        have h4 := List.mem_singleton.mp h2
        injection h4
      rw [ha]; exact hc
    · rw [if_neg hc] at h2; cases h2

theorem inv_target_emits {obj target : Obj} {s : List Obj} {a t : Int}
    (h : (if target.id != obj.id then
        let tf := formeOf target
        if tf == "TABLE" then some (Act.move_to obj.id target.id)
        else if tf == "CUBE" then
          (if (get_objects_on_top target.id s).length == 0 then
            some (Act.move_to obj.id target.id)
          else none)
        else if tf == "CYLINDRE" && !target.couche then
          some (Act.move_to obj.id target.id)
        else if tf == "DONUT_SAUCISSE" && target.couche then
          some (Act.move_to obj.id target.id)
        else none
      else none) = some (Act.move_to a t)) :
    obj.id = a ∧ target.id = t ∧ (target.id != obj.id) = true := by
  by_cases hg : (target.id != obj.id) = true
  · rw [if_pos hg] at h
    simp only at h
    split_ifs at h <;>
      (obtain ⟨h1, h2⟩ : obj.id = a ∧ target.id = t := by
        injection h with hval
        injection hval with hv1 hv2
        exact ⟨hv1, hv2⟩
       exact ⟨h1, h2, hg⟩)
  · rw [if_neg hg] at h; cases h

theorem mem_rev_gen_move_to {s : List Obj} {a t : Int}
    (h : Act.move_to a t ∈ Inv.get_all_possible_reverse_actions s) :
    Inv.peut_etre_retire_de_dessus a s = true ∧ t ≠ a ∧ ∃ x ∈ s, x.id = t := by
  unfold Inv.get_all_possible_reverse_actions at h
  obtain ⟨obj, hobj, hmem⟩ := mem_concatMap.mp h
  rcases List.mem_append.mp hmem with h12 | h3
  swap
  · exfalso
    by_cases hc : Inv.peut_etre_couche_inverse obj.id s = true
    · rw [if_pos hc] at h3; simp at h3
    · rw [if_neg hc] at h3; cases h3
  rcases List.mem_append.mp h12 with h1 | h2
  · by_cases hd : Inv.peut_etre_retire_de_dessus obj.id s = true
    · rw [if_pos hd] at h1
      obtain ⟨target, htmem, hguard⟩ := List.mem_filterMap.mp h1
      obtain ⟨ha, ht, hne⟩ := inv_target_emits hguard
      subst ha; subst ht
      simp only [bne_iff_ne] at hne
      exact ⟨hd, hne, target, htmem, rfl⟩
    · rw [if_neg hd] at h1; cases h1
  · exfalso
    by_cases hr : Inv.peut_etre_redresse obj.id s = true
    · rw [if_pos hr] at h2; simp at h2
    · rw [if_neg hr] at h2; cases h2

theorem move_update_spec (s : List Obj) (a t : Int) :
    (MB.move_update s a t).2 = (MB.peut_etre_deplace a s && MB.peut_recevoir_deplacement t s) ∧
    ((MB.move_update s a t).2 = true →
      (MB.move_update s a t).1
        = updateFirst (fun o => o.id == a) (fun o => { o with sur := t }) s) ∧
    ((MB.move_update s a t).2 = false → (MB.move_update s a t).1 = s) := by
  unfold MB.move_update
  by_cases hd : MB.peut_etre_deplace a s = true
  · by_cases hr : MB.peut_recevoir_deplacement t s = true
    · obtain ⟨ob, hob, -, -⟩ := deplace_spec hd
      rw [hd, hr, hob]
      simp
    · have hr2 : MB.peut_recevoir_deplacement t s = false := by simpa using hr
      rw [hd, hr2]
      simp
  · have hd2 : MB.peut_etre_deplace a s = false := by simpa using hd
    rw [hd2]
    simp

theorem inv_move_to_update_spec (s : List Obj) (a t : Int) :
    (Inv.move_to_update s a t).2 = Inv.peut_etre_retire_de_dessus a s ∧
    ((Inv.move_to_update s a t).2 = true →
      (Inv.move_to_update s a t).1
        = updateFirst (fun o => o.id == a) (fun o => { o with sur := t }) s) ∧
    ((Inv.move_to_update s a t).2 = false → (Inv.move_to_update s a t).1 = s) := by
  unfold Inv.move_to_update
  by_cases hd : Inv.peut_etre_retire_de_dessus a s = true
  · obtain ⟨ob, hob, -, -⟩ := retire_spec hd
    rw [hd, hob]
    simp
  · have hd2 : Inv.peut_etre_retire_de_dessus a s = false := by simpa using hd
    rw [hd2]
    simp

theorem lay_update_spec (s : List Obj) (a : Int) :
    (MB.lay_update s a).2 = MB.peut_etre_couche a s ∧
    ((MB.lay_update s a).1 = s ∨
      (MB.lay_update s a).1
        = updateFirst (fun o => o.id == a) (fun o => { o with couche := true }) s) ∧
    ((MB.lay_update s a).2 = false → (MB.lay_update s a).1 = s) := by
  unfold MB.lay_update
  by_cases hc : MB.peut_etre_couche a s = true
  · have hex : ∃ o, findObj s a = some o := by
      unfold MB.peut_etre_couche at hc
      split at hc
      next heq => cases hc
      next o heq => exact ⟨o, heq⟩
    obtain ⟨o, ho⟩ := hex
    rw [hc, ho]
    by_cases hco : o.couche = true
    · simp [hco]
    · have hco2 : o.couche = false := by simpa using hco
      simp [hco2]
  · have hc2 : MB.peut_etre_couche a s = false := by simpa using hc
    rw [hc2]
    simp

theorem inv_redresser_spec (s : List Obj) (a : Int) :
    (Inv.redresser a s).2 = Inv.peut_etre_redresse a s ∧
    ((Inv.redresser a s).2 = true →
      (Inv.redresser a s).1
        = updateFirst (fun o => o.id == a) (fun o => { o with couche := false }) s) ∧
    ((Inv.redresser a s).2 = false → (Inv.redresser a s).1 = s) := by
  unfold Inv.redresser
  by_cases hr : Inv.peut_etre_redresse a s = true
  · have hex : ∃ o, findObj s a = some o := by
      unfold Inv.peut_etre_redresse at hr
      split at hr
      next heq => cases hr
      next o heq => exact ⟨o, heq⟩
    obtain ⟨o, ho⟩ := hex
    rw [hr, ho]
    simp
  · have hr2 : Inv.peut_etre_redresse a s = false := by simpa using hr
    rw [hr2]
    simp

theorem inv_coucher_inverse_spec (s : List Obj) (a : Int) :
    (Inv.coucher_inverse a s).2 = Inv.peut_etre_couche_inverse a s ∧
    ((Inv.coucher_inverse a s).2 = true →
      (Inv.coucher_inverse a s).1
        = updateFirst (fun o => o.id == a) (fun o => { o with couche := true }) s) ∧
    ((Inv.coucher_inverse a s).2 = false → (Inv.coucher_inverse a s).1 = s) := by
  unfold Inv.coucher_inverse
  by_cases hr : Inv.peut_etre_couche_inverse a s = true
  · have hex : ∃ o, findObj s a = some o := by
      unfold Inv.peut_etre_couche_inverse at hr
      split at hr
      next heq => cases hr
      next o heq => exact ⟨o, heq⟩
    obtain ⟨o, ho⟩ := hex
    rw [hr, ho]
    simp
  · have hr2 : Inv.peut_etre_couche_inverse a s = false := by simpa using hr
    rw [hr2]
    simp

theorem apply_move_spec {s : List Obj} {a t : Int} {s1 : List Obj} {b : Bool} {d : String}
    (h : MB.apply_action s (Act.move a t) = some (s1, b, d)) :
    b = (MB.peut_etre_deplace a s && MB.peut_recevoir_deplacement t s) ∧
    (b = true → s1 = updateFirst (fun o => o.id == a) (fun o => { o with sur := t }) s) ∧
    (b = false → s1 = s) := by
  unfold MB.apply_action at h
  dsimp only at h
  rcases hcore : MB.move_update s a t with ⟨u, su⟩
  have hspec := move_update_spec s a t
  rw [hcore] at hspec h
  cases hfa : findObj u a with
  | none =>
    cases hft : findObj u t with
    | none => rw [hfa, hft] at h; simp at h
    | some ot => rw [hfa, hft] at h; simp at h
  | some oa =>
    cases hft : findObj u t with
    | none => rw [hfa, hft] at h; simp at h
    | some ot =>
      rw [hfa, hft] at h
      have hinj : u = s1 ∧ su = b := by
        injection h with hval
        injection hval with hv1 hrest
        injection hrest with hv2 hv3
        exact ⟨hv1, hv2⟩
      obtain ⟨rfl, rfl⟩ : s1 = u ∧ b = su := ⟨hinj.1.symm, hinj.2.symm⟩
      exact ⟨hspec.1, hspec.2.1, hspec.2.2⟩

theorem apply_lay_spec {s : List Obj} {a : Int} {s1 : List Obj} {b : Bool} {d : String}
    (h : MB.apply_action s (Act.lay_down a) = some (s1, b, d)) :
    b = MB.peut_etre_couche a s ∧
    (s1 = s ∨ s1 = updateFirst (fun o => o.id == a) (fun o => { o with couche := true }) s) ∧
    (b = false → s1 = s) := by
  unfold MB.apply_action at h
  dsimp only at h
  rcases hcore : MB.lay_update s a with ⟨u, su⟩
  have hspec := lay_update_spec s a
  rw [hcore] at hspec h
  cases hfa : findObj u a with
  | none => rw [hfa] at h; simp at h
  | some oa =>
    rw [hfa] at h
    have hinj : u = s1 ∧ su = b := by
      injection h with hval
      injection hval with hv1 hrest
      injection hrest with hv2 hv3
      exact ⟨hv1, hv2⟩
    obtain ⟨rfl, rfl⟩ : s1 = u ∧ b = su := ⟨hinj.1.symm, hinj.2.symm⟩
    exact ⟨hspec.1, hspec.2.1, hspec.2.2⟩

theorem inv_apply_move_to_spec {s : List Obj} {a t : Int} {s1 : List Obj} {b : Bool}
    {d : String} (h : Inv.apply_reverse_action s (Act.move_to a t) = some (s1, b, d)) :
    b = Inv.peut_etre_retire_de_dessus a s ∧
    (b = true → s1 = updateFirst (fun o => o.id == a) (fun o => { o with sur := t }) s) ∧
    (b = false → s1 = s) := by
  unfold Inv.apply_reverse_action at h
  dsimp only at h
  rcases hcore : Inv.move_to_update s a t with ⟨u, su⟩
  have hspec := inv_move_to_update_spec s a t
  rw [hcore] at hspec h
  cases hfa : findObj u a with
  | none =>
    cases hft : findObj u t with
    | none => rw [hfa, hft] at h; simp at h
    | some ot => rw [hfa, hft] at h; simp at h
  | some oa =>
    cases hft : findObj u t with
    | none => rw [hfa, hft] at h; simp at h
    | some ot =>
      rw [hfa, hft] at h
      have hinj : u = s1 ∧ su = b := by
        injection h with hval
        injection hval with hv1 hrest
        injection hrest with hv2 hv3
        exact ⟨hv1, hv2⟩
      obtain ⟨rfl, rfl⟩ : s1 = u ∧ b = su := ⟨hinj.1.symm, hinj.2.symm⟩
      exact ⟨hspec.1, hspec.2.1, hspec.2.2⟩

theorem inv_apply_stand_up_spec {s : List Obj} {a : Int} {s1 : List Obj} {b : Bool}
    {d : String} (h : Inv.apply_reverse_action s (Act.stand_up a) = some (s1, b, d)) :
    b = Inv.peut_etre_redresse a s ∧
    (b = true → s1 = updateFirst (fun o => o.id == a) (fun o => { o with couche := false }) s) ∧
    (b = false → s1 = s) := by
  unfold Inv.apply_reverse_action at h
  dsimp only at h
  rcases hcore : Inv.redresser a s with ⟨u, su⟩
  have hspec := inv_redresser_spec s a
  rw [hcore] at hspec h
  cases hfa : findObj u a with
  | none => rw [hfa] at h; simp at h
  | some oa =>
    rw [hfa] at h
    have hinj : u = s1 ∧ su = b := by
      injection h with hval
      injection hval with hv1 hrest
      injection hrest with hv2 hv3
      exact ⟨hv1, hv2⟩
    obtain ⟨rfl, rfl⟩ : s1 = u ∧ b = su := ⟨hinj.1.symm, hinj.2.symm⟩
    exact ⟨hspec.1, hspec.2.1, hspec.2.2⟩

theorem inv_apply_lay_down_spec {s : List Obj} {a : Int} {s1 : List Obj} {b : Bool}
    {d : String} (h : Inv.apply_reverse_action s (Act.lay_down a) = some (s1, b, d)) :
    b = Inv.peut_etre_couche_inverse a s ∧
    (b = true → s1 = updateFirst (fun o => o.id == a) (fun o => { o with couche := true }) s) ∧
    (b = false → s1 = s) := by
  unfold Inv.apply_reverse_action at h
  dsimp only at h
  rcases hcore : Inv.coucher_inverse a s with ⟨u, su⟩
  have hspec := inv_coucher_inverse_spec s a
  rw [hcore] at hspec h
  cases hfa : findObj u a with
  | none => rw [hfa] at h; simp at h
  | some oa =>
    rw [hfa] at h
    have hinj : u = s1 ∧ su = b := by
      injection h with hval
      injection hval with hv1 hrest
      injection hrest with hv2 hv3
      exact ⟨hv1, hv2⟩
    obtain ⟨rfl, rfl⟩ : s1 = u ∧ b = su := ⟨hinj.1.symm, hinj.2.symm⟩
    exact ⟨hspec.1, hspec.2.1, hspec.2.2⟩

theorem skeleton_apply {s : List Obj} {a : Act} {s1 : List Obj} {b : Bool} {d : String}
    (h : MB.apply_action s a = some (s1, b, d)) : skeleton s1 = skeleton s := by
  cases a with
  | move o t =>
    obtain ⟨-, h1, h0⟩ := apply_move_spec h
    cases b with
    | true =>
      rw [h1 rfl]
      exact skeleton_updateFirst (f := fun x => { x with sur := t }) (fun x => ⟨rfl, rfl, rfl⟩) _ s
    | false => rw [h0 rfl]
  | lay_down o =>
    obtain ⟨-, h1, -⟩ := apply_lay_spec h
    rcases h1 with rfl | heq
    · rfl
    · rw [heq]
      exact skeleton_updateFirst (f := fun x => { x with couche := true }) (fun x => ⟨rfl, rfl, rfl⟩) _ s
  | move_to o t =>
    have he : MB.apply_action s (Act.move_to o t) = some (s, false, "Action inconnue") := rfl
    rw [he] at h
    injection h with hval
    injection hval with h1 hrest
    rw [← h1]
  | stand_up o =>
    have he : MB.apply_action s (Act.stand_up o) = some (s, false, "Action inconnue") := rfl
    rw [he] at h
    injection h with hval
    injection hval with h1 hrest
    rw [← h1]

theorem wf_preserve_sur_update {s : List Obj} {a t : Int}
    (hwf : ∀ o ∈ s, ∃ k, reachesTable s k o.id = true)
    (hno : ∀ x ∈ s, x.sur ≠ a) (hta : t ≠ a)
    (htmem : ∃ x ∈ s, x.id = t)
    {ob : Obj} (hfind : findObj s a = some ob) :
    ∀ o1 ∈ updateFirst (fun o => o.id == a) (fun o => { o with sur := t }) s,
      ∃ k, reachesTable
        (updateFirst (fun o => o.id == a) (fun o => { o with sur := t }) s) k o1.id = true := by
  obtain ⟨xt, hxt, hxid⟩ := htmem
  obtain ⟨kt, hkt⟩ := hwf xt hxt
  rw [hxid] at hkt
  have hktnew :
      reachesTable (updateFirst (fun o => o.id == a) (fun o => { o with sur := t }) s) kt t
        = true := by
    rw [reachesTable_updateSur hno kt t hta]; exact hkt
  have hreach_a :
      reachesTable (updateFirst (fun o => o.id == a) (fun o => { o with sur := t }) s)
        (kt+1) a = true := by
    have hfind1 := findObj_updateFirst_self (f := fun o => { o with sur := t })
      (fun x => rfl) hfind
    simp [reachesTable, hfind1, formeOf, hktnew]
  intro o1 ho1
  rcases updateFirst_mem ho1 with hmem | ⟨x, hx, hpx, rfl⟩
  · by_cases hid : o1.id = a
    · exact ⟨kt+1, by rw [hid]; exact hreach_a⟩
    · obtain ⟨k0, hk0⟩ := hwf o1 hmem
      exact ⟨k0, by rw [reachesTable_updateSur hno k0 o1.id hid]; exact hk0⟩
  · have hxa : x.id = a := by simpa using hpx
    exact ⟨kt+1, by rw [show ({ x with sur := t } : Obj).id = a from hxa]; exact hreach_a⟩

theorem wf_preserve_couche_update {s : List Obj} {a : Int} {f : Obj → Obj}
    (hf : ∀ x, (f x).id = x.id ∧ (f x).sur = x.sur ∧ (f x).forme = x.forme)
    (hwf : ∀ o ∈ s, ∃ k, reachesTable s k o.id = true) :
    ∀ o1 ∈ updateFirst (fun o => o.id == a) f s,
      ∃ k, reachesTable (updateFirst (fun o => o.id == a) f s) k o1.id = true := by
  intro o1 ho1
  rcases updateFirst_mem ho1 with hmem | ⟨x, hx, hpx, rfl⟩
  · obtain ⟨k0, hk0⟩ := hwf o1 hmem
    exact ⟨k0, by rw [reachesTable_congr_couche hf a s k0 o1.id]; exact hk0⟩
  · obtain ⟨k0, hk0⟩ := hwf x hx
    exact ⟨k0, by rw [reachesTable_congr_couche hf a s k0 (f x).id, (hf x).1]; exact hk0⟩

theorem GenStep_preserves_wf {s s1 : List Obj} (h : GenStep s s1)
    (hwf : ∀ o ∈ s, ∃ k, reachesTable s k o.id = true) :
    ∀ o ∈ s1, ∃ k, reachesTable s1 k o.id = true := by
  rcases h with ⟨a, hmem, dd, happ⟩ | ⟨a, hmem, dd, happ⟩
  · cases a with
    | move o t =>
      obtain ⟨hd, hr, hta, htmem⟩ := mem_gen_move hmem
      obtain ⟨-, h1, -⟩ := apply_move_spec happ
      obtain ⟨ob, hfind, hnotable, hno⟩ := deplace_spec hd
      rw [h1 rfl]
      exact wf_preserve_sur_update hwf hno hta htmem hfind
    | lay_down o =>
      obtain ⟨-, h1, -⟩ := apply_lay_spec happ
      rcases h1 with rfl | heq
      · exact hwf
      · rw [heq]
        exact wf_preserve_couche_update (fun x => ⟨rfl, rfl, rfl⟩) hwf
    | move_to o t =>
      exfalso
      have he : MB.apply_action s (Act.move_to o t) = some (s, false, "Action inconnue") := rfl
      rw [he] at happ
      injection happ with hval
      injection hval with h1 hrest
      injection hrest with h2 h3
      cases h2
    | stand_up o =>
      exfalso
      have he : MB.apply_action s (Act.stand_up o) = some (s, false, "Action inconnue") := rfl
      rw [he] at happ
      injection happ with hval
      injection hval with h1 hrest
      injection hrest with h2 h3
      cases h2
  · cases a with
    | move_to o t =>
      obtain ⟨hd, hta, htmem⟩ := mem_rev_gen_move_to hmem
      obtain ⟨-, h1, -⟩ := inv_apply_move_to_spec happ
      obtain ⟨ob, hfind, hnotable, hno⟩ := retire_spec hd
      rw [h1 rfl]
      exact wf_preserve_sur_update hwf hno hta htmem hfind
    | stand_up o =>
      obtain ⟨-, h1, -⟩ := inv_apply_stand_up_spec happ
      rw [h1 rfl]
      exact wf_preserve_couche_update (fun x => ⟨rfl, rfl, rfl⟩) hwf
    | lay_down o =>
      obtain ⟨-, h1, -⟩ := inv_apply_lay_down_spec happ
      rw [h1 rfl]
      exact wf_preserve_couche_update (fun x => ⟨rfl, rfl, rfl⟩) hwf
    | move o t =>
      exfalso
      have he : Inv.apply_reverse_action s (Act.move o t)
          = some (s, false, "Action inverse inconnue") := rfl
      rw [he] at happ
      injection happ with hval
      injection hval with h1 hrest
      injection hrest with h2 h3
      cases h2

theorem wfB_to_wfE {s : List Obj} (h : wfB s = true) :
    ∀ o ∈ s, ∃ k, reachesTable s k o.id = true := by
  intro o ho
  exact ⟨s.length, List.all_eq_true.mp h o ho⟩

theorem iterSup_add {s : List Obj} {p q : Nat} {i j l : Int}
    (h1 : iterSup s p i = some j) (h2 : iterSup s q j = some l) :
    iterSup s (p + q) i = some l := by
  induction p generalizing i with
  | zero =>
    have : i = j := by simpa [iterSup] using h1
    subst this
    simpa using h2
  | succ p ih =>
    unfold iterSup at h1
    cases hfind : findObj s i with
    | none => rw [hfind] at h1; cases h1
    | some o =>
      rw [hfind] at h1
      dsimp only at h1
      by_cases hT : (formeOf o == "TABLE") = true
      · rw [if_pos hT] at h1; cases h1
      · rw [if_neg hT] at h1
        have := ih h1
        have hgoal : iterSup s (p + q + 1) i = some l := by
          unfold iterSup
          rw [hfind]
          dsimp only
          rw [if_neg hT]
          exact this
        have harith : p + 1 + q = p + q + 1 := by omega
        rw [harith]
        exact hgoal

theorem not_reaches_of_cycle {s : List Obj} :
    ∀ k i p, 1 ≤ p → iterSup s p i = some i → reachesTable s k i = false := by
  intro k
  induction k with
  | zero =>
    intro i p hp hcyc
    cases hfind : findObj s i with
    | none => simp [reachesTable, hfind]
    | some o =>
      by_cases hT : (formeOf o == "TABLE") = true
      · exfalso
        cases p with
        | zero => omega
        | succ p2 =>
          unfold iterSup at hcyc
          rw [hfind] at hcyc
          dsimp only at hcyc
          rw [if_pos hT] at hcyc
          cases hcyc
      · simp [reachesTable, hfind]
        simpa using hT
  | succ k ih =>
    intro i p hp hcyc
    cases p with
    | zero => omega
    | succ p2 =>
      unfold iterSup at hcyc
      cases hfind : findObj s i with
      | none => rw [hfind] at hcyc; cases hcyc
      | some o =>
        rw [hfind] at hcyc
        dsimp only at hcyc
        by_cases hT : (formeOf o == "TABLE") = true
        · rw [if_pos hT] at hcyc; cases hcyc
        · rw [if_neg hT] at hcyc
          have hstep : iterSup s 1 i = some o.sur := by
            unfold iterSup
            rw [hfind]
            dsimp only
            rw [if_neg hT]
            rfl
          have hcyc2 : iterSup s (p2 + 1) o.sur = some o.sur := iterSup_add hcyc hstep
          have hrec := ih o.sur (p2+1) (by omega) hcyc2
          simp [reachesTable, hfind, hrec]
          simpa using hT

theorem updateFirst_eq_self_of_find {i : Int} {l : List Obj} {a : Obj} {f : Obj → Obj}
    (hfind : findObj l i = some a) (hfa : f a = a) :
    updateFirst (fun o => o.id == i) f l = l := by
  induction l with
  | nil => rfl
  | cons b bs ih =>
    by_cases hb : (b.id == i) = true
    · have hba : b = a := by simpa [findObj, List.find?, hb] using hfind
      subst hba
      simp [updateFirst, hb, hfa]
    · have h2 : findObj bs i = some a := by simpa [findObj, List.find?, hb] using hfind
      simp only [updateFirst, hb, Bool.false_eq_true, if_false]
      rw [ih h2]

theorem not_mem_supportChain {s : List Obj} {o : Int}
    (hno : ∀ x ∈ s, x.sur ≠ o) :
    ∀ fuel t, t ≠ o → o ∉ supportChain s fuel t := by
  intro fuel
  induction fuel with
  | zero =>
    intro t ht
    simp only [supportChain, List.mem_singleton]
    exact Ne.symm ht
  | succ fuel ih =>
    intro t ht
    simp only [supportChain, List.mem_cons, not_or]
    refine ⟨Ne.symm ht, ?_⟩
    cases hfind : findObj s t with
    | none => simp
    | some x =>
      dsimp only
      by_cases hT : (formeOf x == "TABLE") = true
      · simp [hT]
      · rw [if_neg hT]
        have hx := findObj_mem hfind
        exact ih x.sur (hno x hx.1)

theorem mem_ap_gen_move_to {s : List Obj} {a t : Int}
    (h : Act.move_to a t ∈ AP.get_all_possible_reverse_actions s) :
    AP.peut_etre_retire_de_dessus a s = true ∧ t ≠ a := by
  unfold AP.get_all_possible_reverse_actions at h
  obtain ⟨obj, hobj, hmem⟩ := mem_concatMap.mp h
  by_cases hTab : (formeOf obj == "TABLE") = true
  · rw [if_pos hTab] at hmem; cases hmem
  · rw [if_neg hTab] at hmem
    rcases List.mem_append.mp hmem with h12 | h3
    swap
    · exfalso
      by_cases hc : (!obj.couche) = true
      · rw [if_pos hc] at h3; simp at h3
      · rw [if_neg hc] at h3; cases h3
    rcases List.mem_append.mp h12 with h1 | h2
    swap
    · exfalso
      by_cases hc : obj.couche = true
      · rw [if_pos hc] at h2; simp at h2
      · rw [if_neg hc] at h2; cases h2
    by_cases hd : AP.peut_etre_retire_de_dessus obj.id s = true
    · rw [if_pos hd] at h1
      obtain ⟨target, htmem, hguard⟩ := List.mem_filterMap.mp h1
      by_cases hg1 : (target.id != obj.id && target.id != obj.sur) = true
      · rw [if_pos hg1] at hguard
        by_cases hg2 : (!(AP.would_create_cycle obj.id target.id s)) = true
        · rw [if_pos hg2] at hguard
          obtain ⟨ha, ht⟩ : obj.id = a ∧ target.id = t := by
            injection hguard with hval
            injection hval with hv1 hv2
            exact ⟨hv1, hv2⟩
          simp only [Bool.and_eq_true, bne_iff_ne] at hg1
          subst ha; subst ht
          exact ⟨hd, hg1.1⟩
        · rw [if_neg hg2] at hguard; cases hguard
      · rw [if_neg hg1] at hguard; cases hguard
    · rw [if_neg hd] at h1; cases h1

theorem ap_retire_no_support {s : List Obj} {a : Int}
    (h : AP.peut_etre_retire_de_dessus a s = true) : ∀ x ∈ s, x.sur ≠ a := by
  have h2 : ((get_objects_on_top a s).length == 0) = true := h
  exact on_top_iff.mp h2

/-- C1: for every state reachable from a well-formed start state by actions
emitted by the forward generator (get_all_possible_actions, applied through
apply_action) or the reverse generator (get_all_possible_reverse_actions,
applied through apply_reverse_action), the support relation, followed
transitively, terminates at the table and is acyclic: the support walk from
every object reaches a table object, and no non-table object ever reappears in
its own strict support iteration. -/
theorem C1_reachable_support_wf {start s : List Obj}
    (hwf : wfB start = true) (hreach : Relation.ReflTransGen GenStep start s) :
    (∀ o ∈ s, ∃ k, reachesTable s k o.id = true) ∧
    (∀ o ∈ s, (formeOf o == "TABLE") = false →
      ∀ m, iterSup s (m+1) o.id ≠ some o.id) := by
  have hwfs : ∀ o ∈ s, ∃ k, reachesTable s k o.id = true := by
    induction hreach with
    | refl => exact wfB_to_wfE hwf
    | tail hr hstep ih => exact GenStep_preserves_wf hstep ih
  refine ⟨hwfs, fun o ho hT m hcyc => ?_⟩
  obtain ⟨k, hk⟩ := hwfs o ho
  have hfalse := not_reaches_of_cycle k o.id (m+1) (by omega) hcyc
  rw [hfalse] at hk
  cases hk

/-- Witness for C1 at a concrete well-formed start state. -/
theorem C1_reachable_support_wf_witness :
    wfB exStartA = true ∧ (∀ o ∈ exStartA, ∃ k, reachesTable exStartA k o.id = true) :=
  ⟨by decide, (C1_reachable_support_wf (by decide) Relation.ReflTransGen.refl).1⟩

/-- C4: a ('move_to', o, t) action emitted by either reverse generator (the
inverse-search module or the all-paths modules) never has the moved object in
the support chain followed from the target up to the table. -/
theorem C4_reverse_move_to_no_cycle (s : List Obj) (o t : Int) :
    (Act.move_to o t ∈ Inv.get_all_possible_reverse_actions s →
      ∀ fuel, o ∉ supportChain s fuel t) ∧
    (Act.move_to o t ∈ AP.get_all_possible_reverse_actions s →
      ∀ fuel, o ∉ supportChain s fuel t) := by
  constructor
  · intro h fuel
    obtain ⟨hret, hta, -⟩ := mem_rev_gen_move_to h
    obtain ⟨-, -, -, hno⟩ := retire_spec hret
    exact not_mem_supportChain hno fuel t hta
  · intro h fuel
    obtain ⟨hret, hta⟩ := mem_ap_gen_move_to h
    exact not_mem_supportChain (ap_retire_no_support hret) fuel t hta

/-- Witness for C4 at a concrete state and emitted action. -/
theorem C4_reverse_move_to_no_cycle_witness :
    Act.move_to 2 0 ∈ Inv.get_all_possible_reverse_actions exStartA ∧
    (2 : Int) ∉ supportChain exStartA 5 0 :=
  ⟨by decide, (C4_reverse_move_to_no_cycle exStartA 2 0).1 (by decide) 5⟩

/-- C5 counterexample: on a standing cylinder resting on the table (movable,
non-cube, non-table), the StandUp reverse action reports success = false in
both reverse modules, refuting the claim that an already-standing object is
treated as success. -/
theorem C5_counterexample :
    Inv.apply_reverse_action exC5 (Act.stand_up 1)
      = some (exC5, false, "Redresser Cylindre") ∧
    AP.apply_reverse_action exC5 (Act.stand_up 1)
      = some (exC5, false, "Redresser Cylindre") := by
  decide

/-- C5 amended: the forward LayDown treats an already-lying object as success
with the state unchanged, but the reverse StandUp treats an already-standing
object as failure: it returns success = false and leaves the state (hence the
lying flag) unchanged, in the inverse-search module and in the all-paths
modules alike. -/
theorem C5_amended (s : List Obj) (oid : Int) (o : Obj) (hfind : findObj s oid = some o) :
    (MB.peut_etre_couche oid s = true → o.couche = true →
      MB.apply_action s (Act.lay_down oid) = some (s, true, "Coucher " ++ o.nom)) ∧
    (o.couche = false →
      Inv.apply_reverse_action s (Act.stand_up oid)
          = some (s, false, "Redresser " ++ o.nom) ∧
      AP.apply_reverse_action s (Act.stand_up oid)
          = some (s, false, "Redresser " ++ o.nom)) := by
  constructor
  · intro hc hco
    have hlay : MB.lay_update s oid = (s, true) := by
      unfold MB.lay_update
      rw [hc, hfind]
      simp [hco]
    unfold MB.apply_action
    dsimp only
    rw [hlay]
    dsimp only
    rw [hfind]
  · intro hco
    constructor
    · have hred : Inv.peut_etre_redresse oid s = false := by
        unfold Inv.peut_etre_redresse
        rw [hfind]
        dsimp only
        simp [hco]
      have hredresser : Inv.redresser oid s = (s, false) := by
        unfold Inv.redresser
        rw [hred]
        simp
      unfold Inv.apply_reverse_action
      dsimp only
      rw [hredresser]
      dsimp only
      rw [hfind]
    · have hredresser : AP.redresser oid s = (s, false) := by
        unfold AP.redresser
        rw [hfind]
        simp [hco]
      unfold AP.apply_reverse_action
      dsimp only
      rw [hredresser]
      dsimp only
      rw [hfind]

/-- Witness for C5 amended at a concrete state. -/
theorem C5_amended_witness :
    MB.apply_action [exTable, Obj.mk 1 "Cylindre" "CYLINDRE" 0 true]
        (Act.lay_down 1)
      = some ([exTable, Obj.mk 1 "Cylindre" "CYLINDRE" 0 true], true, "Coucher Cylindre") ∧
    Inv.apply_reverse_action exC5 (Act.stand_up 1)
      = some (exC5, false, "Redresser Cylindre") :=
  ⟨(C5_amended [exTable, Obj.mk 1 "Cylindre" "CYLINDRE" 0 true] 1
      (Obj.mk 1 "Cylindre" "CYLINDRE" 0 true) (by decide)).1 (by decide) (by decide),
   ((C5_amended exC5 1 (Obj.mk 1 "Cylindre" "CYLINDRE" 0 false) (by decide)).2 (by decide)).1⟩

/-- C6 counterexample: with a movable cube and a lying cylinder (which cannot
currently receive), the reverse transition for ('move_to', cube, cylinder)
reports success = true, refuting the claim that the transition functions report
failure whenever the target cannot currently receive. -/
theorem C6_counterexample :
    MB.peut_recevoir_deplacement 2 exC6 = false ∧
    Inv.apply_reverse_action exC6 (Act.move_to 1 2)
      = some ([exTable, Obj.mk 1 "CubeA" "CUBE" 2 false,
               Obj.mk 2 "Cylindre" "CYLINDRE" 0 true], true,
          "Déplacer CubeA sur Cylindre") := by
  decide

/-- C6 amended: the forward move transition re-validates both preconditions at
application time (success is exactly mover-liftable AND target-can-receive) and
returns the input state unchanged on failure; the reverse move_to transition
re-validates only that the mover can currently be removed (success is exactly
peut_etre_retire_de_dessus, the target receive rule is not re-checked) and
returns the input state unchanged on failure.  The transition functions operate
on a copy, so the caller state is never mutated. -/
theorem C6_amended (s : List Obj) (a t : Int) (s1 : List Obj) (b : Bool) (d : String) :
    (MB.apply_action s (Act.move a t) = some (s1, b, d) →
      b = (MB.peut_etre_deplace a s && MB.peut_recevoir_deplacement t s) ∧
      (b = false → s1 = s)) ∧
    (Inv.apply_reverse_action s (Act.move_to a t) = some (s1, b, d) →
      b = Inv.peut_etre_retire_de_dessus a s ∧ (b = false → s1 = s)) := by
  constructor
  · intro h
    obtain ⟨h1, -, h3⟩ := apply_move_spec h
    exact ⟨h1, h3⟩
  · intro h
    obtain ⟨h1, -, h3⟩ := inv_apply_move_to_spec h
    exact ⟨h1, h3⟩

/-- Witness for C6 amended at a concrete failing forward move. -/
theorem C6_amended_witness :
    (false : Bool) = (MB.peut_etre_deplace 1 exC6 && MB.peut_recevoir_deplacement 2 exC6) ∧
    ((false : Bool) = false → exC6 = exC6) :=
  (C6_amended exC6 1 2 exC6 false "Déplacer CubeA sur Cylindre").1 (by decide)

/-- C7: when a forward move of o onto t is emitted by the forward generator and
succeeds, and the reverse move of o back onto its old support is emitted by the
reverse generator in the resulting state and succeeds, the resulting state is
states_equal to the original (ids are unique per the data model). -/
theorem C7_move_then_reverse_restores (s : List Obj) (o t : Int) (ob : Obj)
    (s1 s2 : List Obj) (b1 b2 : Bool) (d1 d2 : String)
    (hnd : (s.map Obj.id).Nodup)
    (hfind : findObj s o = some ob)
    (hgen : Act.move o t ∈ MB.get_all_possible_actions s)
    (happ : MB.apply_action s (Act.move o t) = some (s1, b1, d1))
    (hrgen : Act.move_to o ob.sur ∈ Inv.get_all_possible_reverse_actions s1)
    (hrapp : Inv.apply_reverse_action s1 (Act.move_to o ob.sur) = some (s2, b2, d2)) :
    b1 = true ∧ b2 = true ∧ MB.states_equal s2 s = true := by
  obtain ⟨hd, hr, -, -⟩ := mem_gen_move hgen
  obtain ⟨hb1, h1, -⟩ := apply_move_spec happ
  have hb1t : b1 = true := by rw [hb1, hd, hr]; rfl
  obtain ⟨hret, -, -⟩ := mem_rev_gen_move_to hrgen
  obtain ⟨hb2, h2, -⟩ := inv_apply_move_to_spec hrapp
  have hb2t : b2 = true := by rw [hb2, hret]
  have hs1 := h1 hb1t
  have hs2 := h2 hb2t
  rw [hs1] at hs2
  rw [updateFirst_updateFirst (p := fun x => x.id == o)
    (f := fun x => { x with sur := t })
    (g := fun x => { x with sur := ob.sur }) (fun x => rfl) s] at hs2
  have hs2s : s2 = s := by
    rw [hs2]
    exact updateFirst_eq_self_of_find hfind rfl
  rw [hs2s]
  exact ⟨hb1t, hb2t, states_equal_refl hnd⟩

/-- Witness for C7 on the two-cube scenario. -/
theorem C7_witness :
    (true = true) ∧ (true = true) ∧ MB.states_equal exStartA exStartA = true :=
  C7_move_then_reverse_restores exStartA 2 0 (Obj.mk 2 "CubeB" "CUBE" 1 false)
    exGoalA exStartA true true "Déplacer CubeB sur Table" "Déplacer CubeB sur CubeA"
    (by decide) (by decide) (by decide) (by decide) (by decide) (by decide)

/-- C8: peut_recevoir_deplacement implements exactly the per-shape receive
rule: for an object present in the state it returns true iff the shape is
TABLE; or CYLINDRE and standing; or DONUT_SAUCISSE and lying; or CUBE with
nothing resting directly on it; any other shape yields false. -/
theorem C8_peut_recevoir_shape_rule (s : List Obj) (i : Int) (o : Obj)
    (hfind : findObj s i = some o) :
    MB.peut_recevoir_deplacement i s = true ↔
      (formeOf o = "TABLE" ∨ (formeOf o = "CYLINDRE" ∧ o.couche = false) ∨
       (formeOf o = "DONUT_SAUCISSE" ∧ o.couche = true) ∨
       (formeOf o = "CUBE" ∧ get_objects_on_top i s = [])) := by
  unfold MB.peut_recevoir_deplacement
  rw [hfind]
  dsimp only
  split_ifs with h1 h2 h3 h4
  · simp only [beq_iff_eq] at h1
    simp [h1]
  · simp only [Bool.and_eq_true, beq_iff_eq, Bool.not_eq_true'] at h2
    simp [h2.1, h2.2]
  · simp only [Bool.and_eq_true, beq_iff_eq] at h3
    simp [h3.1, h3.2]
  · simp only [beq_iff_eq] at h1 h4
    constructor
    · intro hlen
      refine Or.inr (Or.inr (Or.inr ⟨h4, ?_⟩))
      have hlen0 : (get_objects_on_top i s).length = 0 := by simpa using hlen
      exact List.length_eq_zero.mp hlen0
    · intro hr
      rcases hr with hT | hC | hD | hK
      · exact absurd hT h1
      · exfalso; rw [h4] at hC; exact absurd hC.1 (by decide)
      · exfalso; rw [h4] at hD; exact absurd hD.1 (by decide)
      · simp [hK.2]
  · simp only [beq_iff_eq] at h1 h4
    simp only [Bool.false_eq_true, false_iff]
    intro hr
    rcases hr with hT | hC | hD | hK
    · exact h1 hT
    · simp only [Bool.and_eq_true, beq_iff_eq, Bool.not_eq_true'] at h2
      exact absurd hC.2 (by simpa [hC.1] using h2)
    · simp only [Bool.and_eq_true, beq_iff_eq] at h3
      exact absurd hD.2 (by simpa [hD.1] using h3)
    · exact h4 hK.1

/-- Witness for C8 on a lying cylinder, which cannot receive. -/
theorem C8_peut_recevoir_shape_rule_witness :
    MB.peut_recevoir_deplacement 2 exC6 = true ↔
      (formeOf (Obj.mk 2 "Cylindre" "CYLINDRE" 0 true) = "TABLE" ∨
       (formeOf (Obj.mk 2 "Cylindre" "CYLINDRE" 0 true) = "CYLINDRE" ∧
         (Obj.mk 2 "Cylindre" "CYLINDRE" 0 true).couche = false) ∨
       (formeOf (Obj.mk 2 "Cylindre" "CYLINDRE" 0 true) = "DONUT_SAUCISSE" ∧
         (Obj.mk 2 "Cylindre" "CYLINDRE" 0 true).couche = true) ∨
       (formeOf (Obj.mk 2 "Cylindre" "CYLINDRE" 0 true) = "CUBE" ∧
         get_objects_on_top 2 exC6 = [])) :=
  C8_peut_recevoir_shape_rule exC6 2 (Obj.mk 2 "Cylindre" "CYLINDRE" 0 true) (by decide)

theorem map_nd_updateFirst_children {l : List Node} {pid cid : Nat} :
    (updateFirst (fun n => n.id == pid)
      (fun n => { n with children := n.children ++ [cid] }) l).map nd = l.map nd := by
  induction l with
  | nil => rfl
  | cons a as ih =>
    by_cases hp : (a.id == pid) = true
    · simp [updateFirst, hp, nd]
    · simp only [updateFirst, hp, Bool.false_eq_true, if_false, List.map_cons]
      rw [ih]

theorem create_node_gdata (g : GraphSearchJSON) (gg : Option (List Obj))
    (state : List Obj) (parent : Option Nat) (action : Option Act)
    (description : String) (depth : Nat) :
    gdata (create_node g gg state parent action description depth).2
      = gdata g ++
        [⟨g.node_counter, parent, state, action, description, depth,
          MB.state_to_string state⟩] ∧
    (create_node g gg state parent action description depth).1.id = g.node_counter ∧
    (create_node g gg state parent action description depth).1.states = state ∧
    (create_node g gg state parent action description depth).2.node_counter
      = g.node_counter + 1 ∧
    (create_node g gg state parent action description depth).2.visited_states
      = g.visited_states := by
  cases parent with
  | none =>
    refine ⟨?_, rfl, rfl, rfl, rfl⟩
    simp [create_node, gdata, nd]
  | some pid =>
    refine ⟨?_, rfl, rfl, rfl, rfl⟩
    show (updateFirst (fun n => n.id == pid) _
        (g.graph_data ++ [_])).map nd = _
    rw [map_nd_updateFirst_children]
    simp [gdata, nd]

theorem find?_node_self {l : List Node} (hnd : (l.map Node.id).Nodup)
    {n : Node} (hn : n ∈ l) : l.find? (fun m => m.id == n.id) = some n := by
  induction l with
  | nil => cases hn
  | cons x xs ih =>
    rcases List.mem_cons.mp hn with rfl | hn2
    · simp [List.find?]
    · have hnd2 : x.id ∉ xs.map Node.id ∧ (xs.map Node.id).Nodup := by
        rw [List.map_cons, List.nodup_cons] at hnd
        exact hnd
      have hx : n.id ∈ xs.map Node.id := List.mem_map_of_mem _ hn2
      have hne : (x.id == n.id) = false := by
        simp only [beq_eq_false_iff_ne]
        intro he
        exact hnd2.1 (he ▸ hx)
      simpa [List.find?, hne] using ih hnd2.2 hn2

theorem gd_ids_nodup {gd : List NodeData}
    (hids : gd.map NodeData.id = List.range gd.length) :
    (gd.map NodeData.id).Nodup := by
  rw [hids]; exact List.nodup_range _

theorem gd_id_lt {gd : List NodeData}
    (hids : gd.map NodeData.id = List.range gd.length) :
    ∀ n ∈ gd, n.id < gd.length := by
  intro n hn
  have : n.id ∈ gd.map NodeData.id := List.mem_map_of_mem _ hn
  rw [hids] at this
  exact List.mem_range.mp this

theorem gd_depth_le_id {gd : List NodeData}
    (hids : gd.map NodeData.id = List.range gd.length)
    (hpar : ∀ n ∈ gd,
      (n.parent = none → n.action = none ∧ n.depth = 0) ∧
      (∀ p, n.parent = some p →
        (∃ np ∈ gd, np.id = p ∧ n.depth = np.depth + 1) ∧ p < n.id ∧ n.action ≠ none)) :
    ∀ n ∈ gd, n.depth ≤ n.id := by
  have H : ∀ i, ∀ n ∈ gd, n.id = i → n.depth ≤ i := by
    intro i
    induction i using Nat.strong_induction_on with
    | _ i ih =>
      intro n hn hni
      cases hp : n.parent with
      | none =>
        have := ((hpar n hn).1 hp).2
        omega
      | some p =>
        obtain ⟨⟨np, hnp, hnpid, hdep⟩, hlt, -⟩ := (hpar n hn).2 p hp
        have hnpd := ih np.id (by omega) np hnp rfl
        omega
  exact fun n hn => H n.id n hn rfl

theorem nd_mem_of_gd {g : GraphSearchJSON} {x : NodeData} (hx : x ∈ gdata g) :
    ∃ n ∈ g.graph_data, nd n = x := by
  simpa [gdata] using hx

theorem reconstruct_len {g : GraphSearchJSON}
    (hids : (gdata g).map NodeData.id = List.range (gdata g).length)
    (hpar : ∀ n ∈ gdata g,
      (n.parent = none → n.action = none ∧ n.depth = 0) ∧
      (∀ p, n.parent = some p →
        (∃ np ∈ gdata g, np.id = p ∧ n.depth = np.depth + 1) ∧ p < n.id ∧ n.action ≠ none)) :
    ∀ x ∈ gdata g, ∀ fuel acc, x.depth + 1 ≤ fuel →
      ∃ pre, reconstruct_path g.graph_data fuel (some x.id) acc = some (pre ++ acc) ∧
        pre.length = x.depth := by
  have hnodeids : (g.graph_data.map Node.id).Nodup := by
    have : g.graph_data.map Node.id = (gdata g).map NodeData.id := by
      simp only [gdata, List.map_map]
      rfl
    rw [this]
    exact gd_ids_nodup hids
  have H : ∀ i, ∀ x ∈ gdata g, x.id = i → ∀ fuel acc, x.depth + 1 ≤ fuel →
      ∃ pre, reconstruct_path g.graph_data fuel (some x.id) acc = some (pre ++ acc) ∧
        pre.length = x.depth := by
    intro i
    induction i using Nat.strong_induction_on with
    | _ i ih =>
      intro x hx hxi fuel acc hfuel
      obtain ⟨n, hn, hndx⟩ := nd_mem_of_gd hx
      have hfind : g.graph_data.find? (fun m => m.id == x.id) = some n := by
        have := find?_node_self hnodeids hn
        rw [show n.id = x.id from by rw [← hndx]; rfl] at this
        exact this
      cases fuel with
      | zero => omega
      | succ fuel =>
        rw [show reconstruct_path g.graph_data (fuel+1) (some x.id) acc
            = (match g.graph_data.find? (fun m => m.id == x.id) with
              | none => some acc
              | some n =>
                match n.action with
                | some a => reconstruct_path g.graph_data fuel n.parent
                    ({ action := a, description := n.description } :: acc)
                | none => reconstruct_path g.graph_data fuel n.parent acc) from rfl]
        rw [hfind]
        dsimp only
        have hna : n.action = x.action := by rw [← hndx]; rfl
        have hnp : n.parent = x.parent := by rw [← hndx]; rfl
        have hndep : n.depth = x.depth := by rw [← hndx]; rfl
        cases hp : x.parent with
        | none =>
          have hroot := (hpar x hx).1 hp
          rw [hna, hroot.1, hnp, hp]
          refine ⟨[], ?_, by rw [hroot.2]; rfl⟩
          dsimp only
          simp [reconstruct_path]
        | some p =>
          obtain ⟨⟨np, hnpmem, hnpid, hdep⟩, hlt, hact⟩ := (hpar x hx).2 p hp
          cases hxa : x.action with
          | none => exact absurd hxa hact
          | some a =>
            rw [hna, hxa, hnp, hp]
            dsimp only
            have hrec := ih np.id (by omega) np hnpmem rfl fuel
              ({ action := a, description := n.description } :: acc) (by omega)
            rw [hnpid] at hrec
            obtain ⟨pre, hpre, hlen⟩ := hrec
            refine ⟨pre ++ [{ action := a, description := n.description }], ?_, ?_⟩
            · rw [hpre]
              simp
            · simp [hlen, hdep]
  exact fun x hx => H x.id x hx rfl

theorem skeleton_of_reach {start : List Obj} :
    ∀ {n : Nat} {x : List Obj}, ReachN start n x → skeleton x = skeleton start := by
  intro n
  induction n with
  | zero => intro x hx; rw [show x = start from hx]
  | succ n ih =>
    intro x hx
    obtain ⟨y, hy, a, hmem, d, happ⟩ := hx
    rw [skeleton_apply happ, ih hy]

theorem pairwise_of_mem_mem {α : Type} {R : α → α → Prop} {l : List α}
    (h : ∀ a ∈ l, ∀ b ∈ l, R a b) : l.Pairwise R := by
  induction l with
  | nil => exact List.Pairwise.nil
  | cons x xs ih =>
    refine List.Pairwise.cons
      (fun b hb => h x (List.mem_cons_self x xs) b (List.mem_cons_of_mem _ hb)) ?_
    exact ih (fun a ha b hb => h a (List.mem_cons_of_mem _ ha) b (List.mem_cons_of_mem _ hb))

theorem gd_mem_id_inj {gd : List NodeData}
    (hids : gd.map NodeData.id = List.range gd.length) :
    ∀ n ∈ gd, ∀ m ∈ gd, n.id = m.id → n = m := by
  have hnd := gd_ids_nodup hids
  intro n hn m hm hnm
  exact List.inj_on_of_nodup_map hnd hn hm hnm

theorem emid_entry_key_visited {start goal : List Obj} {maxd nid : Nat} {cur : List Obj}
    {d : Nat} {rest : List QEntry} {sols : List (List PathStep)}
    {g : GraphSearchJSON} {adds : List QEntry}
    (hmid : EMid start goal maxd nid cur d rest sols g adds) :
    ∀ e ∈ rest ++ adds, MB.state_to_string e.2.1 ∈ g.visited_states := by
  intro e he
  obtain ⟨n, hn, -, hst, -⟩ := hmid.queue_nodes e he
  have h1 := hmid.node_key n hn
  have h2 := hmid.nodes_visited n hn
  rw [h1, hst] at h2
  exact h2

theorem EMid_insert {start goal : List Obj} {maxd nid : Nat} {cur : List Obj} {d : Nat}
    {rest : List QEntry} {sols : List (List PathStep)}
    {g : GraphSearchJSON} {adds : List QEntry}
    (hmid : EMid start goal maxd nid cur d rest sols g adds)
    (hcur_reach : ReachN start d cur) (hcur_skel : skeleton cur = skeleton start)
    {a : Act} {ns : List Obj} {desc : String}
    (happ : MB.apply_action cur a = some (ns, true, desc))
    (hagen : a ∈ MB.get_all_possible_actions cur)
    (hnotvis : MB.state_to_string ns ∉ g.visited_states)
    {gnew : GraphSearchJSON}
    (hgd : gdata gnew = gdata g ++
      [⟨g.node_counter, some nid, ns, some a, desc, d+1, MB.state_to_string ns⟩])
    (hvis : gnew.visited_states = g.visited_states ++ [MB.state_to_string ns])
    (hcnt : gnew.node_counter = g.node_counter + 1) :
    EMid start goal maxd nid cur d rest sols gnew
      (adds ++ [(g.node_counter, ns, d+1)]) := by
  have hstep : FwdStep cur ns := ⟨a, hagen, desc, happ⟩
  have hreachns : ReachN start (d+1) ns := ⟨cur, hcur_reach, hstep⟩
  have hskelns : skeleton ns = skeleton start := by
    rw [skeleton_apply happ, hcur_skel]
  have hnewnode : (⟨g.node_counter, some nid, ns, some a, desc, d+1,
      MB.state_to_string ns⟩ : NodeData) ∈ gdata gnew := by
    rw [hgd]; exact List.mem_append_right _ (List.mem_singleton.mpr rfl)
  have hkey_not_node : ∀ n ∈ gdata g, n.state_string ≠ MB.state_to_string ns := by
    intro n hn he
    exact hnotvis (he ▸ hmid.nodes_visited n hn)
  have hmem_cases : ∀ n ∈ gdata gnew, n ∈ gdata g ∨
      n = ⟨g.node_counter, some nid, ns, some a, desc, d+1, MB.state_to_string ns⟩ := by
    intro n hn
    rw [hgd] at hn
    rcases List.mem_append.mp hn with h1 | h2
    · exact Or.inl h1
    · exact Or.inr (List.mem_singleton.mp h2)
  refine ⟨?_, ?_, ?_, ?_, ?_, ?_, ?_, ?_, ?_, ?_, ?_, ?_, ?_, ?_, ?_, ?_, ?_⟩
  · rw [hcnt, hgd, hmid.counter_eq]
    simp
  · rw [hgd]
    simp only [List.map_append, List.length_append, List.map_cons, List.map_nil,
      List.length_cons, List.length_nil]
    rw [hmid.ids, hmid.counter_eq]
    have := List.range_succ (n := (gdata g).length)
    simp [this]
  · intro n hn
    rcases hmem_cases n hn with h1 | rfl
    · exact hmid.node_reach n h1
    · exact hreachns
  · intro n hn
    rcases hmem_cases n hn with h1 | rfl
    · exact hmid.node_key n h1
    · rfl
  · intro n hn
    rcases hmem_cases n hn with h1 | rfl
    · exact hmid.node_skel n h1
    · exact hskelns
  · intro n hn
    rcases hmem_cases n hn with h1 | rfl
    · obtain ⟨hr, hs⟩ := hmid.node_parent n h1
      refine ⟨hr, fun p hp => ?_⟩
      obtain ⟨⟨np, hnp, hnpid, hnpd⟩, hlt, hact⟩ := hs p hp
      exact ⟨⟨np, by rw [hgd]; exact List.mem_append_left _ hnp, hnpid, hnpd⟩, hlt, hact⟩
    · refine ⟨fun hpn => ?_, fun p hp => ?_⟩
      · cases hpn
      obtain ⟨np, hnp, hnpid, hnpcur, hnpd⟩ := hmid.nid_node
      have hpn : p = nid := by injection hp with h1; exact h1.symm
      subst hpn
      refine ⟨⟨np, by rw [hgd]; exact List.mem_append_left _ hnp, hnpid, by rw [hnpd]⟩, ?_, ?_⟩
      · have := gd_id_lt hmid.ids np hnp
        rw [hnpid] at this
        rw [← hmid.counter_eq] at this
        exact this
      · intro hco; cases hco
  · intro k hk
    rw [hvis] at hk
    rcases List.mem_append.mp hk with h1 | h2
    · obtain ⟨n, hn, hns⟩ := hmid.visited_nodes k h1
      exact ⟨n, by rw [hgd]; exact List.mem_append_left _ hn, hns⟩
    · exact ⟨_, hnewnode, (List.mem_singleton.mp h2).symm⟩
  · intro n hn
    rcases hmem_cases n hn with h1 | rfl
    · rw [hvis]; exact List.mem_append_left _ (hmid.nodes_visited n h1)
    · rw [hvis]; exact List.mem_append_right _ (List.mem_singleton.mpr rfl)
  · rw [hgd]
    simp only [List.map_append, List.map_cons, List.map_nil]
    rw [List.nodup_append]
    refine ⟨hmid.keys_nodup, List.nodup_singleton _, ?_⟩
    intro k hk
    obtain ⟨n, hn, hns⟩ := List.mem_map.mp hk
    simp only [List.mem_singleton]
    intro he
    exact hkey_not_node n hn (by rw [hns, he])
  · intro e he
    rw [← List.append_assoc] at he
    rcases List.mem_append.mp he with h1 | h2
    · obtain ⟨n, hn, hni, hns, hnd2⟩ := hmid.queue_nodes e h1
      exact ⟨n, by rw [hgd]; exact List.mem_append_left _ hn, hni, hns, hnd2⟩
    · rw [List.mem_singleton.mp h2]
      exact ⟨_, hnewnode, rfl, rfl, rfl⟩
  · rw [← List.append_assoc, List.map_append, List.nodup_append]
    refine ⟨hmid.queue_keys_nodup, List.nodup_singleton _, ?_⟩
    intro k hk
    obtain ⟨e, he, hke⟩ := List.mem_map.mp hk
    simp only [List.map_cons, List.map_nil, List.mem_singleton]
    intro heq
    apply hnotvis
    rw [← heq, ← hke]
    exact emid_entry_key_visited hmid e he
  · intro n hn
    rcases hmem_cases n hn with h1 | rfl
    · exact hmid.depth_bound n h1
    · exact le_refl _
  · obtain ⟨np, hnp, h1, h2, h3⟩ := hmid.nid_node
    exact ⟨np, by rw [hgd]; exact List.mem_append_left _ hnp, h1, h2, h3⟩
  · intro e he
    rcases List.mem_append.mp he with h1 | h2
    · exact hmid.adds_depth e h1
    · rw [List.mem_singleton.mp h2]
  · intro n hn
    rcases hmem_cases n hn with h1 | rfl
    · rcases hmid.expanded_mid n h1 with h | h | h | h | h
      · exact Or.inl h
      · obtain ⟨e, he, hei⟩ := h
        exact Or.inr (Or.inl ⟨e, by
          rw [← List.append_assoc]
          exact List.mem_append_left _ he, hei⟩)
      · exact Or.inr (Or.inr (Or.inl h))
      · exact Or.inr (Or.inr (Or.inr (Or.inl h)))
      · refine Or.inr (Or.inr (Or.inr (Or.inr fun x hx => ?_)))
        obtain ⟨m, hm, hms, hmd⟩ := h x hx
        exact ⟨m, by rw [hgd]; exact List.mem_append_left _ hm, hms, hmd⟩
    · refine Or.inr (Or.inl ⟨(g.node_counter, ns, d+1), ?_, rfl⟩)
      rw [← List.append_assoc]
      exact List.mem_append_right _ (List.mem_singleton.mpr rfl)
  · intro p hp
    obtain ⟨n, hn, h1, h2, h3⟩ := hmid.sols_graph p hp
    exact ⟨n, by rw [hgd]; exact List.mem_append_left _ hn, h1, h2, h3⟩
  · rcases hmid.sols_mid with h | ⟨hlen, hng⟩
    · exact Or.inl h
    · refine Or.inr ⟨hlen, fun e he => ?_⟩
      rw [← List.append_assoc] at he
      rcases List.mem_append.mp he with h1 | h2
      · exact hng e h1
      · rw [List.mem_singleton.mp h2]
        dsimp only
        by_cases hns : MB.states_equal ns goal = true
        · exfalso
          have hsolsne : sols ≠ [] := by
            intro hempty
            rw [hempty] at hlen
            cases hlen
          obtain ⟨p0, hp0⟩ := List.exists_mem_of_ne_nil sols hsolsne
          obtain ⟨gn, hgn, hgng, -, -⟩ := hmid.sols_graph p0 hp0
          have heqst : ns = gn.states :=
            states_equal_unique (by rw [hskelns, hmid.node_skel gn hgn]) hns hgng
          apply hnotvis
          rw [heqst, ← hmid.node_key gn hgn]
          exact hmid.nodes_visited gn hgn
        · simpa using hns

theorem expandLoop_go {start goal : List Obj} {maxd nid : Nat} {cur : List Obj} {d : Nat}
    {rest : List QEntry} {sols : List (List PathStep)} (gg : Option (List Obj))
    (hcur_reach : ReachN start d cur) (hcur_skel : skeleton cur = skeleton start) :
    ∀ (acts : List Act), (∀ a ∈ acts, a ∈ MB.get_all_possible_actions cur) →
    ∀ (g : GraphSearchJSON) (adds : List QEntry),
      EMid start goal maxd nid cur d rest sols g adds →
    ∀ {g2 : GraphSearchJSON} {adds2 : List QEntry},
      expandLoop gg cur nid d acts g adds = some (g2, adds2) →
      EMid start goal maxd nid cur d rest sols g2 adds2 ∧
      (∃ suffix, gdata g2 = gdata g ++ suffix) ∧
      ∀ a ∈ acts, ∀ x bb dd, MB.apply_action cur a = some (x, bb, dd) → bb = true →
        ∃ m ∈ gdata g2, m.states = x ∧ m.depth ≤ d + 1 := by
  intro acts
  induction acts with
  | nil =>
    intro _ g adds hmid g2 adds2 hres
    simp only [expandLoop, Option.some.injEq] at hres
    obtain ⟨hg, ha⟩ := Prod.mk.inj hres
    subst hg; subst ha
    exact ⟨hmid, ⟨[], by simp⟩, fun a ha => absurd ha (List.not_mem_nil a)⟩
  | cons a as ih =>
    intro hgen g adds hmid g2 adds2 hres
    have hagen : a ∈ MB.get_all_possible_actions cur := hgen a (List.mem_cons_self a as)
    have hgen2 : ∀ b ∈ as, b ∈ MB.get_all_possible_actions cur :=
      fun b hb => hgen b (List.mem_cons_of_mem _ hb)
    simp only [expandLoop] at hres
    cases happ : MB.apply_action cur a with
    | none =>
      rw [happ] at hres
      exact Option.noConfusion hres
    | some r =>
      obtain ⟨ns, bb, desc⟩ := r
      rw [happ] at hres
      dsimp only at hres
      cases bb with
      | false =>
        simp only [Bool.not_false, if_true] at hres
        obtain ⟨hmid2, hmono, hcov⟩ := ih hgen2 g adds hmid hres
        refine ⟨hmid2, hmono, ?_⟩
        intro b hb x bb2 dd2 happ2 hbb2
        rcases List.mem_cons.mp hb with rfl | hb2
        · rw [happ] at happ2
          injection happ2 with h1
          injection h1 with h2 h3
          injection h3 with h4 h5
          rw [← h4] at hbb2
          cases hbb2
        · exact hcov b hb2 x bb2 dd2 happ2 hbb2
      | true =>
        simp only [Bool.not_true, Bool.false_eq_true, if_false] at hres
        by_cases hvis : g.visited_states.contains (MB.state_to_string ns) = true
        · rw [if_pos hvis] at hres
          obtain ⟨hmid2, hmono, hcov⟩ := ih hgen2 g adds hmid hres
          refine ⟨hmid2, hmono, ?_⟩
          intro b hb x bb2 dd2 happ2 hbb2
          rcases List.mem_cons.mp hb with rfl | hb2
          · have hxns : x = ns := by
              rw [happ] at happ2
              injection happ2 with h1
              injection h1 with h2 h3
              exact h2.symm
            subst hxns
            have hkmem : MB.state_to_string x ∈ g.visited_states := by simpa using hvis
            obtain ⟨n, hn, hnk⟩ := hmid.visited_nodes _ hkmem
            have hnkey := hmid.node_key n hn
            have hsk : skeleton n.states = skeleton x := by
              rw [hmid.node_skel n hn, ← hcur_skel, skeleton_apply happ]
            have hns : n.states = x := state_key_inj hsk (by rw [← hnkey, hnk])
            obtain ⟨suf, hsuf⟩ := hmono
            exact ⟨n, by rw [hsuf]; exact List.mem_append_left _ hn, hns,
              hmid.depth_bound n hn⟩
          · exact hcov b hb2 x bb2 dd2 happ2 hbb2
        · rw [if_neg hvis] at hres
          have hnotvis : MB.state_to_string ns ∉ g.visited_states := by simpa using hvis
          rcases hcn : create_node
              ⟨g.graph_data, g.node_counter,
                g.visited_states ++ [MB.state_to_string ns]⟩
              gg ns (some nid) (some a) desc (d+1) with ⟨node, gnew⟩
          rw [hcn] at hres
          dsimp only at hres
          have hc := create_node_gdata
            ⟨g.graph_data, g.node_counter,
              g.visited_states ++ [MB.state_to_string ns]⟩
            gg ns (some nid) (some a) desc (d+1)
          rw [hcn] at hc
          obtain ⟨hgd2, hid2, hst2, hcnt2, hvis2⟩ := hc
          have hid2' : node.id = g.node_counter := hid2
          rw [hid2'] at hres
          have hmid2 : EMid start goal maxd nid cur d rest sols gnew
              (adds ++ [(g.node_counter, ns, d+1)]) :=
            EMid_insert hmid hcur_reach hcur_skel happ hagen hnotvis hgd2 hvis2 hcnt2
          obtain ⟨hmid3, ⟨suf, hsuf⟩, hcov⟩ := ih hgen2 gnew _ hmid2 hres
          refine ⟨hmid3, ?_, ?_⟩
          · refine ⟨[⟨g.node_counter, some nid, ns, some a, desc, d+1,
              MB.state_to_string ns⟩] ++ suf, ?_⟩
            rw [hsuf, hgd2, List.append_assoc]
            rfl
          · intro b hb x bb2 dd2 happ2 hbb2
            rcases List.mem_cons.mp hb with rfl | hb2
            · have hxns : x = ns := by
                rw [happ] at happ2
                injection happ2 with h1
                injection h1 with h2 h3
                exact h2.symm
              subst hxns
              refine ⟨⟨g.node_counter, some nid, x, some b, desc, d+1,
                MB.state_to_string x⟩, ?_, rfl, le_refl _⟩
              rw [hsuf, hgd2]
              exact List.mem_append_left _
                (List.mem_append_right _ (List.mem_singleton.mpr rfl))
            · exact hcov b hb2 x bb2 dd2 happ2 hbb2

theorem BfsInv_drop {start goal : List Obj} {maxd nid : Nat} {cur : List Obj} {d : Nat}
    {rest : List QEntry} {gd : List NodeData} {visited : List Key} {counter : Nat}
    {sols : List (List PathStep)}
    (hinv : BfsInv start goal maxd ((nid, cur, d) :: rest) gd visited counter sols)
    (hd : maxd ≤ d) :
    BfsInv start goal maxd rest gd visited counter sols := by
  obtain ⟨n0, hn0, hni, hns, hndep⟩ :=
    hinv.queue_nodes (nid, cur, d) (List.mem_cons_self _ _)
  have hni' : n0.id = nid := hni
  have hnd' : n0.depth = d := hndep
  refine ⟨hinv.counter_eq, hinv.ids, hinv.node_reach, hinv.node_key, hinv.node_skel,
    hinv.node_parent, hinv.visited_nodes, hinv.nodes_visited, hinv.keys_nodup,
    fun e he => hinv.queue_nodes e (List.mem_cons_of_mem _ he),
    (List.pairwise_cons.mp hinv.queue_sorted).2, ?_,
    fun n hn e he => hinv.graph_queue_depth n hn e (List.mem_cons_of_mem _ he),
    ?_, hinv.sols_graph, ?_⟩
  · have h := hinv.queue_keys_nodup
    rw [List.map_cons, List.nodup_cons] at h
    exact h.2
  · intro n hn
    rcases hinv.expanded n hn with ⟨e, he, hei⟩ | h2 | h3 | h4
    · rcases List.mem_cons.mp he with rfl | he2
      · have hid : n.id = n0.id := by rw [hni']; exact hei.symm
        have heq : n = n0 := gd_mem_id_inj hinv.ids n hn n0 hn0 hid
        exact Or.inr (Or.inl (by rw [heq, hnd']; exact hd))
      · exact Or.inl ⟨e, he2, hei⟩
    · exact Or.inr (Or.inl h2)
    · exact Or.inr (Or.inr (Or.inl h3))
    · exact Or.inr (Or.inr (Or.inr h4))
  · rcases hinv.sols_card with h | ⟨h1, h2⟩
    · exact Or.inl h
    · exact Or.inr ⟨h1, fun e he => h2 e (List.mem_cons_of_mem _ he)⟩

theorem EMid_of_BfsInv {start goal : List Obj} {maxd nid : Nat} {cur : List Obj} {d : Nat}
    {rest : List QEntry} {g : GraphSearchJSON} {sols : List (List PathStep)}
    (hinv : BfsInv start goal maxd ((nid, cur, d) :: rest) (gdata g) g.visited_states
      g.node_counter sols) :
    EMid start goal maxd nid cur d rest sols g [] := by
  obtain ⟨n0, hn0, hni, hns, hndep⟩ :=
    hinv.queue_nodes (nid, cur, d) (List.mem_cons_self _ _)
  have hni' : n0.id = nid := hni
  have hns' : n0.states = cur := hns
  have hnd' : n0.depth = d := hndep
  refine ⟨hinv.counter_eq, hinv.ids, hinv.node_reach, hinv.node_key, hinv.node_skel,
    hinv.node_parent, hinv.visited_nodes, hinv.nodes_visited, hinv.keys_nodup,
    ?_, ?_, ?_, ⟨n0, hn0, hni', hns', hnd'⟩, ?_, ?_, hinv.sols_graph, ?_⟩
  · intro e he
    rw [List.append_nil] at he
    exact hinv.queue_nodes e (List.mem_cons_of_mem _ he)
  · rw [List.append_nil]
    have h := hinv.queue_keys_nodup
    rw [List.map_cons, List.nodup_cons] at h
    exact h.2
  · intro n hn
    exact hinv.graph_queue_depth n hn (nid, cur, d) (List.mem_cons_self _ _)
  · intro e he
    cases he
  · intro n hn
    rcases hinv.expanded n hn with ⟨e, he, hei⟩ | h2 | h3 | h4
    · rcases List.mem_cons.mp he with rfl | he2
      · exact Or.inl hei.symm
      · exact Or.inr (Or.inl ⟨e, by rw [List.append_nil]; exact he2, hei⟩)
    · exact Or.inr (Or.inr (Or.inl h2))
    · exact Or.inr (Or.inr (Or.inr (Or.inl h3)))
    · exact Or.inr (Or.inr (Or.inr (Or.inr h4)))
  · rcases hinv.sols_card with h | ⟨h1, h2⟩
    · exact Or.inl h
    · refine Or.inr ⟨h1, fun e he => ?_⟩
      rw [List.append_nil] at he
      exact h2 e (List.mem_cons_of_mem _ he)

theorem BfsInv_found {start goal : List Obj} {maxd nid : Nat} {cur : List Obj} {d : Nat}
    {rest : List QEntry} {gd : List NodeData} {visited : List Key} {counter : Nat}
    {sols : List (List PathStep)} {path : List PathStep}
    (hinv : BfsInv start goal maxd ((nid, cur, d) :: rest) gd visited counter sols)
    (hd : d < maxd) (hgoal : MB.states_equal cur goal = true)
    (hlen : path.length = d) :
    BfsInv start goal maxd rest gd visited counter (sols ++ [path]) := by
  obtain ⟨n0, hn0, hni, hns, hndep⟩ :=
    hinv.queue_nodes (nid, cur, d) (List.mem_cons_self _ _)
  have hni' : n0.id = nid := hni
  have hns' : n0.states = cur := hns
  have hnd' : n0.depth = d := hndep
  have hsols : sols = [] := by
    rcases hinv.sols_card with h | ⟨h1, h2⟩
    · exact h
    · have hfalse : MB.states_equal cur goal = false :=
        h2 (nid, cur, d) (List.mem_cons_self _ _)
      rw [hgoal] at hfalse
      exact Bool.noConfusion hfalse
  subst hsols
  refine ⟨hinv.counter_eq, hinv.ids, hinv.node_reach, hinv.node_key, hinv.node_skel,
    hinv.node_parent, hinv.visited_nodes, hinv.nodes_visited, hinv.keys_nodup,
    fun e he => hinv.queue_nodes e (List.mem_cons_of_mem _ he),
    (List.pairwise_cons.mp hinv.queue_sorted).2, ?_,
    fun n hn e he => hinv.graph_queue_depth n hn e (List.mem_cons_of_mem _ he),
    ?_, ?_, ?_⟩
  · have h := hinv.queue_keys_nodup
    rw [List.map_cons, List.nodup_cons] at h
    exact h.2
  · intro n hn
    rcases hinv.expanded n hn with ⟨e, he, hei⟩ | h2 | h3 | h4
    · rcases List.mem_cons.mp he with rfl | he2
      · have hid : n.id = n0.id := by rw [hni']; exact hei.symm
        have heq : n = n0 := gd_mem_id_inj hinv.ids n hn n0 hn0 hid
        exact Or.inr (Or.inr (Or.inl (by rw [heq, hns']; exact hgoal)))
      · exact Or.inl ⟨e, he2, hei⟩
    · exact Or.inr (Or.inl h2)
    · exact Or.inr (Or.inr (Or.inl h3))
    · exact Or.inr (Or.inr (Or.inr h4))
  · intro p hp
    rcases List.mem_append.mp hp with h1 | h2
    · cases h1
    · rw [List.mem_singleton.mp h2]
      exact ⟨n0, hn0, by rw [hns']; exact hgoal, by rw [hnd']; exact hd,
        by rw [hnd']; exact hlen⟩
  · refine Or.inr ⟨by simp, ?_⟩
    intro e he
    cases hse : MB.states_equal e.2.1 goal with
    | false => rfl
    | true =>
      exfalso
      obtain ⟨m, hm, hmi, hms, hmd⟩ := hinv.queue_nodes e (List.mem_cons_of_mem _ he)
      have hsk : skeleton e.2.1 = skeleton cur := by
        rw [← hms, hinv.node_skel m hm, ← hinv.node_skel n0 hn0, hns']
      have hecur : e.2.1 = cur := states_equal_unique hsk hse hgoal
      have hnd := hinv.queue_keys_nodup
      rw [List.map_cons, List.nodup_cons] at hnd
      apply hnd.1
      simpa [hecur] using
        List.mem_map_of_mem (fun x : QEntry => MB.state_to_string x.2.1) he

theorem BfsInv_after_expand {start goal : List Obj} {maxd nid : Nat} {cur : List Obj}
    {d : Nat} {rest : List QEntry} {sols : List (List PathStep)}
    {g2 : GraphSearchJSON} {adds2 : List QEntry}
    (hmid : EMid start goal maxd nid cur d rest sols g2 adds2)
    (hcov : ∀ x, FwdStep cur x → ∃ m ∈ gdata g2, m.states = x ∧ m.depth ≤ d + 1)
    (hrest_sorted : rest.Pairwise (fun e1 e2 => e1.2.2 ≤ e2.2.2))
    (hrest_lb : ∀ e ∈ rest, d ≤ e.2.2)
    (hrest_ub : ∀ e ∈ rest, e.2.2 ≤ d + 1) :
    BfsInv start goal maxd (rest ++ adds2) (gdata g2) g2.visited_states
      g2.node_counter sols := by
  refine ⟨hmid.counter_eq, hmid.ids, hmid.node_reach, hmid.node_key, hmid.node_skel,
    hmid.node_parent, hmid.visited_nodes, hmid.nodes_visited, hmid.keys_nodup,
    hmid.queue_nodes, ?_, hmid.queue_keys_nodup, ?_, ?_, hmid.sols_graph, hmid.sols_mid⟩
  · rw [List.pairwise_append]
    refine ⟨hrest_sorted, pairwise_of_mem_mem ?_, ?_⟩
    · intro e1 he1 e2 he2
      rw [hmid.adds_depth e1 he1, hmid.adds_depth e2 he2]
    · intro e1 he1 e2 he2
      rw [hmid.adds_depth e2 he2]
      exact hrest_ub e1 he1
  · intro n hn e he
    rcases List.mem_append.mp he with h1 | h2
    · have hb := hmid.depth_bound n hn
      have hl := hrest_lb e h1
      omega
    · rw [hmid.adds_depth e h2]
      have hb := hmid.depth_bound n hn
      omega
  · intro n hn
    rcases hmid.expanded_mid n hn with h0 | h1 | h2 | h3 | h4
    · obtain ⟨np, hnp, hnpi, hnps, hnpd⟩ := hmid.nid_node
      have heq : n = np := gd_mem_id_inj hmid.ids n hn np hnp (by rw [h0, hnpi])
      subst heq
      refine Or.inr (Or.inr (Or.inr (fun x hstep => ?_)))
      obtain ⟨m, hm, hms, hmd⟩ := hcov x (by
        have h := hstep
        rw [hnps] at h
        exact h)
      exact ⟨m, hm, hms, by rw [hnpd]; exact hmd⟩
    · exact Or.inl h1
    · exact Or.inr (Or.inl h2)
    · exact Or.inr (Or.inr (Or.inl h3))
    · exact Or.inr (Or.inr (Or.inr h4))

theorem bfsLoop_inv {start goal : List Obj} {maxd : Nat} (gg : Option (List Obj)) :
    ∀ (fuel : Nat) (queue : List QEntry) (g : GraphSearchJSON)
      (sols : List (List PathStep)),
      BfsInv start goal maxd queue (gdata g) g.visited_states g.node_counter sols →
      ∀ {sols2 : List (List PathStep)} {g2 : GraphSearchJSON},
        bfsLoop gg goal maxd fuel queue g sols = some (sols2, g2) →
        BfsInv start goal maxd [] (gdata g2) g2.visited_states g2.node_counter sols2 := by
  intro fuel
  induction fuel with
  | zero =>
    intro queue g sols hinv sols2 g2 hres
    exact Option.noConfusion hres
  | succ fuel ih =>
    intro queue g sols hinv sols2 g2 hres
    cases queue with
    | nil =>
      simp only [bfsLoop, Option.some.injEq] at hres
      obtain ⟨hs, hg⟩ := Prod.mk.inj hres
      subst hs
      subst hg
      exact hinv
    | cons e rest =>
      obtain ⟨nid, cur, d⟩ := e
      simp only [bfsLoop] at hres
      by_cases hd : maxd ≤ d
      · rw [if_pos hd] at hres
        exact ih rest g sols (BfsInv_drop hinv hd) hres
      · rw [if_neg hd] at hres
        by_cases hgoal : MB.states_equal cur goal = true
        · rw [if_pos hgoal] at hres
          obtain ⟨n0, hn0, hni, hns, hndep⟩ :=
            hinv.queue_nodes (nid, cur, d) (List.mem_cons_self _ _)
          have hni' : n0.id = nid := hni
          have hnd' : n0.depth = d := hndep
          have hglen : (gdata g).length = g.graph_data.length := by
            simp [gdata]
          have hfuel : n0.depth + 1 ≤ g.graph_data.length := by
            have h1 := gd_depth_le_id hinv.ids hinv.node_parent n0 hn0
            have h2 := gd_id_lt hinv.ids n0 hn0
            omega
          obtain ⟨pre, hpre, hlen⟩ := reconstruct_len hinv.ids hinv.node_parent n0 hn0
            g.graph_data.length [] hfuel
          rw [hni'] at hpre
          rw [hpre] at hres
          dsimp only at hres
          have hlen2 : (pre ++ ([] : List PathStep)).length = d := by
            rw [List.append_nil, hlen, hnd']
          exact ih rest g _ (BfsInv_found hinv (by omega) hgoal hlen2) hres
        · rw [if_neg hgoal] at hres
          obtain ⟨n0, hn0, hni, hns, hndep⟩ :=
            hinv.queue_nodes (nid, cur, d) (List.mem_cons_self _ _)
          have hns' : n0.states = cur := hns
          have hnd' : n0.depth = d := hndep
          have hreach : ReachN start d cur := by
            have h := hinv.node_reach n0 hn0
            rw [hnd', hns'] at h
            exact h
          have hskel : skeleton cur = skeleton start := by
            have h := hinv.node_skel n0 hn0
            rw [hns'] at h
            exact h
          have hrest_sorted := (List.pairwise_cons.mp hinv.queue_sorted).2
          have hrest_lb : ∀ e ∈ rest, d ≤ e.2.2 :=
            fun e he => (List.pairwise_cons.mp hinv.queue_sorted).1 e he
          have hrest_ub : ∀ e ∈ rest, e.2.2 ≤ d + 1 := by
            intro e he
            obtain ⟨m, hm, hmi, hms, hmd⟩ :=
              hinv.queue_nodes e (List.mem_cons_of_mem _ he)
            have hb : m.depth ≤ d + 1 :=
              hinv.graph_queue_depth m hm (nid, cur, d) (List.mem_cons_self _ _)
            omega
          cases hexp : expandLoop gg cur nid d (MB.get_all_possible_actions cur) g [] with
          | none =>
            rw [hexp] at hres
            exact Option.noConfusion hres
          | some pr =>
            obtain ⟨ge, adds⟩ := pr
            rw [hexp] at hres
            dsimp only at hres
            have hmid0 : EMid start goal maxd nid cur d rest sols g [] :=
              EMid_of_BfsInv hinv
            obtain ⟨hmid, hmono, hcovall⟩ := expandLoop_go gg hreach hskel
              (MB.get_all_possible_actions cur) (fun a ha => ha) g [] hmid0 hexp
            have hcov : ∀ x, FwdStep cur x →
                ∃ m ∈ gdata ge, m.states = x ∧ m.depth ≤ d + 1 := by
              intro x hstep
              obtain ⟨a, hagen, dd, happ⟩ := hstep
              exact hcovall a hagen x true dd happ rfl
            exact ih (rest ++ adds) ge sols
              (BfsInv_after_expand hmid hcov hrest_sorted hrest_lb hrest_ub) hres

theorem bfsInv_root {start goal : List Obj} {maxd : Nat} {queue : List QEntry}
    {gd : List NodeData} {visited : List Key} {counter : Nat}
    {sols : List (List PathStep)}
    (hinv : BfsInv start goal maxd queue gd visited counter sols)
    {n : NodeData} (hn : n ∈ gd) :
    ∃ n0 ∈ gd, n0.states = start ∧ n0.depth = 0 := by
  have H : ∀ i, ∀ n ∈ gd, n.id = i → ∃ n0 ∈ gd, n0.states = start ∧ n0.depth = 0 := by
    intro i
    induction i using Nat.strong_induction_on with
    | _ i ih =>
      intro n hn hni
      cases hp : n.parent with
      | none =>
        have hroot := (hinv.node_parent n hn).1 hp
        have hreach := hinv.node_reach n hn
        rw [hroot.2] at hreach
        exact ⟨n, hn, hreach, hroot.2⟩
      | some p =>
        obtain ⟨⟨np, hnp, hnpid, -⟩, hlt, -⟩ := (hinv.node_parent n hn).2 p hp
        exact ih np.id (by omega) np hnp rfl
  exact H n.id n hn rfl

theorem bfs_minimal {start goal : List Obj} {maxd : Nat} {gd : List NodeData}
    {visited : List Key} {counter : Nat} {sols : List (List PathStep)}
    (hinv : BfsInv start goal maxd [] gd visited counter sols)
    {p : List PathStep} (hp : p ∈ sols) :
    ∀ m x, ReachN start m x → MB.states_equal x goal = true → p.length ≤ m := by
  obtain ⟨ng, hng, hngg, hngd, hplen⟩ := hinv.sols_graph p hp
  obtain ⟨n0, hn0, hn0s, hn0d⟩ := bfsInv_root hinv hng
  have hgoaluniq : ∀ n ∈ gd, MB.states_equal n.states goal = true → n = ng := by
    intro n hn hg
    have hsk : skeleton n.states = skeleton ng.states := by
      rw [hinv.node_skel n hn, hinv.node_skel ng hng]
    have hst : n.states = ng.states := states_equal_unique hsk hg hngg
    have hkey : n.state_string = ng.state_string := by
      rw [hinv.node_key n hn, hinv.node_key ng hng, hst]
    exact List.inj_on_of_nodup_map hinv.keys_nodup hn hng hkey
  have H : ∀ m x, ReachN start m x →
      (∃ n ∈ gd, n.states = x ∧ n.depth ≤ m) ∨ p.length ≤ m := by
    intro m
    induction m with
    | zero =>
      intro x hx
      have hxs : x = start := hx
      exact Or.inl ⟨n0, hn0, by rw [hn0s, hxs], by rw [hn0d]⟩
    | succ i ihm =>
      intro x hx
      obtain ⟨y, hy, hstep⟩ := hx
      rcases ihm y hy with ⟨n, hn, hns, hnd⟩ | hle
      · rcases hinv.expanded n hn with ⟨e, he, -⟩ | h2 | h3 | h4
        · cases he
        · right
          omega
        · right
          have heq := hgoaluniq n hn h3
          rw [heq] at hnd
          omega
        · left
          obtain ⟨m2, hm2, hm2s, hm2d⟩ := h4 x (by rw [hns]; exact hstep)
          exact ⟨m2, hm2, hm2s, by omega⟩
      · right
        omega
  intro m x hxm hxg
  rcases H m x hxm with ⟨n, hn, hns, hnd⟩ | hle
  · have hg : MB.states_equal n.states goal = true := by rw [hns]; exact hxg
    have heq := hgoaluniq n hn hg
    rw [heq] at hnd
    omega
  · exact hle

theorem bfs_run_inv {fuel maxd : Nat} {start goal : List Obj}
    {sols : List (List PathStep)} {gfin : GraphSearchJSON}
    (hres : breadth_first_search_with_graph fuel start goal maxd = some (sols, gfin)) :
    BfsInv start goal maxd [] (gdata gfin) gfin.visited_states
      gfin.node_counter sols := by
  have hres2 : bfsLoop (some goal) goal maxd fuel [(0, start, 0)]
      ⟨[⟨0, none, [], start, MB.states_equal start goal, none, "Initial state", 0,
        MB.state_to_string start⟩], 1, [MB.state_to_string start]⟩ []
      = some (sols, gfin) := hres
  refine bfsLoop_inv (some goal) fuel [(0, start, 0)] _ [] ?_ hres2
  refine ⟨rfl, rfl, ?_, ?_, ?_, ?_, ?_, ?_, ?_, ?_, ?_, ?_, ?_, ?_, ?_, ?_⟩
  · intro n hn
    have hn2 : n = ⟨0, none, start, none, "Initial state", 0,
        MB.state_to_string start⟩ := by simpa [gdata, nd] using hn
    subst hn2
    exact rfl
  · intro n hn
    have hn2 : n = ⟨0, none, start, none, "Initial state", 0,
        MB.state_to_string start⟩ := by simpa [gdata, nd] using hn
    subst hn2
    rfl
  · intro n hn
    have hn2 : n = ⟨0, none, start, none, "Initial state", 0,
        MB.state_to_string start⟩ := by simpa [gdata, nd] using hn
    subst hn2
    rfl
  · intro n hn
    have hn2 : n = ⟨0, none, start, none, "Initial state", 0,
        MB.state_to_string start⟩ := by simpa [gdata, nd] using hn
    subst hn2
    exact ⟨fun _ => ⟨rfl, rfl⟩, fun p hp => Option.noConfusion hp⟩
  · intro k hk
    exact ⟨⟨0, none, start, none, "Initial state", 0, MB.state_to_string start⟩,
      List.mem_singleton.mpr rfl, (List.mem_singleton.mp hk).symm⟩
  · intro n hn
    have hn2 : n = ⟨0, none, start, none, "Initial state", 0,
        MB.state_to_string start⟩ := by simpa [gdata, nd] using hn
    subst hn2
    exact List.mem_singleton.mpr rfl
  · exact List.nodup_singleton _
  · intro e he
    rw [List.mem_singleton.mp he]
    exact ⟨⟨0, none, start, none, "Initial state", 0, MB.state_to_string start⟩,
      List.mem_singleton.mpr rfl, rfl, rfl, rfl⟩
  · simp
  · simp
  · intro n hn e he
    have hn2 : n = ⟨0, none, start, none, "Initial state", 0,
        MB.state_to_string start⟩ := by simpa [gdata, nd] using hn
    subst hn2
    exact Nat.zero_le _
  · intro n hn
    have hn2 : n = ⟨0, none, start, none, "Initial state", 0,
        MB.state_to_string start⟩ := by simpa [gdata, nd] using hn
    subst hn2
    exact Or.inl ⟨(0, start, 0), List.mem_singleton.mpr rfl, rfl⟩
  · intro p hp
    cases hp
  · exact Or.inl rfl

/-- Claim C2: for every start state, goal state and depth bound, a completed run
of the bounded forward BFS (breadth_first_search_with_graph) returns zero or one
solution path, and any returned path is of minimal length: no sequence of legal
forward actions (generator followed by successful application) of strictly
smaller length transforms the start state into a state equal to the goal under
states_equal. -/
theorem C2_bfs_shortest {fuel maxd : Nat} {start goal : List Obj}
    {sols : List (List PathStep)} {gfin : GraphSearchJSON}
    (hres : breadth_first_search_with_graph fuel start goal maxd = some (sols, gfin)) :
    sols.length ≤ 1 ∧
    ∀ p ∈ sols, ∀ m x, ReachN start m x → MB.states_equal x goal = true →
      p.length ≤ m := by
  have hinv := bfs_run_inv hres
  constructor
  · rcases hinv.sols_card with h | ⟨h1, -⟩
    · rw [h]
      exact Nat.zero_le _
    · omega
  · intro p hp
    exact bfs_minimal hinv hp

/-- Witness for C2: the search from the bare-table state to itself with depth
bound 1 returns exactly the empty path, and that path is minimal. -/
theorem C2_bfs_shortest_witness :
    ([([] : List PathStep)] : List (List PathStep)).length ≤ 1 ∧
    ([] : List PathStep).length ≤ 0 := by
  have h := C2_bfs_shortest
    (Eq.refl (breadth_first_search_with_graph 2 [exTable] [exTable] 1))
  exact ⟨h.1, h.2 [] (List.mem_singleton.mpr rfl) 0 [exTable] rfl (by decide)⟩

/-- Claim C10: every solution path returned by breadth_first_search_with_graph
has length strictly less than the max_depth argument; a dequeued node at depth
max_depth is discarded by the depth check before the goal test. -/
theorem C10_solutions_below_bound {fuel maxd : Nat} {start goal : List Obj}
    {sols : List (List PathStep)} {gfin : GraphSearchJSON}
    (hres : breadth_first_search_with_graph fuel start goal maxd = some (sols, gfin)) :
    ∀ p ∈ sols, p.length < maxd := by
  have hinv := bfs_run_inv hres
  intro p hp
  obtain ⟨n, hn, -, hlt, hlen⟩ := hinv.sols_graph p hp
  omega

/-- Witness for C10: the single path returned by the bare-table run has length
0, strictly below the depth bound 1. -/
theorem C10_solutions_below_bound_witness : ([] : List PathStep).length < 1 :=
  C10_solutions_below_bound
    (Eq.refl (breadth_first_search_with_graph 2 [exTable] [exTable] 1)) []
    (List.mem_singleton.mpr rfl)

/-- Claim C3 is refuted for the forward BFS: in the run from three loose cubes
towards an unreachable goal with depth bound 2, the canonical state with cube 1
on cube 2 is recorded once at depth 1; it is reached again at depth 2 (the
depth-1 node holding cube 1 on cube 3 admits the legal, successful action
moving cube 1 onto cube 2, and depth-2 nodes were explored), yet no second node
with that canonical state exists at any depth: visited tracking keys on the
canonical state alone, not on (canonical-state, depth). -/
theorem C3_counterexample :
    ∃ sols gfin,
      breadth_first_search_with_graph 60 exStartC3 exGoalNone 2 = some (sols, gfin) ∧
      (∃ nY ∈ gdata gfin,
        nY.states = [⟨0, "Table", "TABLE", 0, false⟩, ⟨1, "CubeA", "CUBE", 3, false⟩,
          ⟨2, "CubeB", "CUBE", 0, false⟩, ⟨3, "CubeC", "CUBE", 0, false⟩] ∧
        nY.depth = 1) ∧
      Act.move 1 2 ∈ MB.get_all_possible_actions
        [⟨0, "Table", "TABLE", 0, false⟩, ⟨1, "CubeA", "CUBE", 3, false⟩,
         ⟨2, "CubeB", "CUBE", 0, false⟩, ⟨3, "CubeC", "CUBE", 0, false⟩] ∧
      (MB.apply_action
        [⟨0, "Table", "TABLE", 0, false⟩, ⟨1, "CubeA", "CUBE", 3, false⟩,
         ⟨2, "CubeB", "CUBE", 0, false⟩, ⟨3, "CubeC", "CUBE", 0, false⟩]
        (Act.move 1 2)).map (fun r => (r.2.1, MB.state_to_string r.1))
        = some (true, [(0, 0, false), (1, 2, false), (2, 0, false), (3, 0, false)]) ∧
      (∃ n2 ∈ gdata gfin, n2.depth = 2) ∧
      ((gdata gfin).filter (fun n => n.state_string
        == [(0, 0, false), (1, 2, false), (2, 0, false), (3, 0, false)])).length = 1 ∧
      ∀ n ∈ gdata gfin,
        n.state_string = [(0, 0, false), (1, 2, false), (2, 0, false), (3, 0, false)] →
        n.depth = 1 := by
  refine ⟨_, _, rfl, ?_, ?_, ?_, ?_, ?_, ?_⟩
  · decide
  · decide
  · decide
  · decide
  · decide
  · decide

/-- Claim C3 as amended: the forward BFS keys its visited set on the canonical
state alone, so over any completed run every canonical state string occurs at
most once among the recorded nodes, across all depths.  (Only the all-paths
searcher of find_all_winning_paths keys on (state, depth).) -/
theorem C3_amended {fuel maxd : Nat} {start goal : List Obj}
    {sols : List (List PathStep)} {gfin : GraphSearchJSON}
    (hres : breadth_first_search_with_graph fuel start goal maxd = some (sols, gfin)) :
    ((gdata gfin).map NodeData.state_string).Nodup :=
  (bfs_run_inv hres).keys_nodup

/-- Witness for the amended C3 on the bare-table run. -/
theorem C3_amended_witness :
    ((gdata ⟨[⟨0, none, [], [exTable], true, none, "Initial state", 0,
      [(0, 0, false)]⟩], 1, [[(0, 0, false)]]⟩).map NodeData.state_string).Nodup :=
  C3_amended (Eq.refl (breadth_first_search_with_graph 2 [exTable] [exTable] 1))

/-- Claim C9 is refuted: a start state with a dangling support reference (cube
on the nonexistent id 99) and one with a cyclic support graph are not
well-founded (wfB is false), yet breadth_first_search_with_graph does not
reject them: it runs to normal completion, and for the dangling state it even
expands the malformed state, recording a depth-1 successor — the malformed
input is processed mid-search, never surfaced as a validation error. -/
theorem C9_counterexample :
    wfB exDangling = false ∧ wfB exCyclic = false ∧
    (∃ sols gfin,
      breadth_first_search_with_graph 10 exDangling exGoalNone 2 = some (sols, gfin) ∧
      (gdata gfin).length = 2 ∧ ∃ n ∈ gdata gfin, n.depth = 1) ∧
    (∃ sols gfin,
      breadth_first_search_with_graph 10 exCyclic exGoalNone 2 = some (sols, gfin) ∧
      (gdata gfin).length = 1) := by
  refine ⟨by decide, by decide, ⟨_, _, rfl, by decide, by decide⟩,
    ⟨_, _, rfl, by decide⟩⟩

/-- Claim C9 as amended: no input validation exists; the forward search accepts
states with dangling support references or cyclic support graphs and completes
normally on them, returning an ordinary result. -/
theorem C9_amended :
    wfB exDangling = false ∧
    (breadth_first_search_with_graph 10 exDangling exGoalNone 2).isSome = true ∧
    wfB exCyclic = false ∧
    (breadth_first_search_with_graph 10 exCyclic exGoalNone 2).isSome = true := by
  refine ⟨by decide, by decide, by decide, by decide⟩
